import Mathlib

/-!
Verification of the Foundry data-processing pipeline
(`src/server/services/processing-queue.service.ts`, `src/server/lib/pii.ts`,
the jobs controller and the drizzle schema) against its natural-language
specification.  JavaScript strings are modelled as `List Char`
(or Lean `String` where offsets are irrelevant), JavaScript numbers that the
pipeline actually manipulates are modelled as `Int` (record/condition values,
counters) or `Rat` (detector confidences, progress arithmetic), JavaScript
objects as association lists in insertion order, and fallible operations as
`Option`/`Except`.
-/

namespace Foundry

/-! ## JavaScript record values and filter conditions

From `ProcessingJobConfig.filterConditions`
(processing-queue.service.ts lines 16–20) and `ProcessingQueue.checkFilters`
(lines 477–519).  Record field values coming out of the codec are flat
scalars: string, number, boolean or null; numbers are modelled as integers. -/

/-- A flat scalar record value (JavaScript value as seen by `checkFilters`). -/
inductive RValue where
  | s (v : String)
  | n (v : Int)
  | b (v : Bool)
  | null
deriving DecidableEq, Repr

/-- A filter-condition comparison value: the TS type is `string | number`. -/
inductive FValue where
  | s (v : String)
  | n (v : Int)
deriving DecidableEq, Repr

/-- The operator union type of `ProcessingJobConfig.filterConditions`
(processing-queue.service.ts line 18): exactly the six members
`'eq' | 'ne' | 'gt' | 'lt' | 'contains' | 'not_contains'`. -/
inductive FOp where
  | eq
  | ne
  | gt
  | lt
  | contains
  | not_contains
deriving DecidableEq, Repr

/-- All operators of the `FOp` union type. -/
def allFilterOps : List FOp :=
  [.eq, .ne, .gt, .lt, .contains, .not_contains]

/-- The source-level spelling of each operator. -/
def filterOpName : FOp → String
  | .eq => "eq"
  | .ne => "ne"
  | .gt => "gt"
  | .lt => "lt"
  | .contains => "contains"
  | .not_contains => "not_contains"

/-- One entry of `filterConditions`: `{field, operator, value}`. -/
structure FilterCondition where
  field : String
  op : FOp
  value : FValue
deriving DecidableEq, Repr

/-- A record is a JavaScript object in insertion order: an association list. -/
abbrev JsRecord : Type := List (String × RValue)

/-- `record[field]`: property lookup, `none` models `undefined`. -/
def objLookup (r : JsRecord) (k : String) : Option RValue :=
  match r with
  | [] => none
  | (k', v) :: rest => if k' = k then some v else objLookup rest k

/-- JavaScript strict equality `value === condition.value` between a possibly
`undefined` record value and a condition value (string or number); values of
different types are never strictly equal. -/
def jsStrictEq (v : Option RValue) (cv : FValue) : Bool :=
  match v, cv with
  | some (.s a), .s b => a = b
  | some (.n a), .n b => a = b
  | _, _ => false

/-- Model of the JavaScript `Number(string)` coercion restricted to the
grammar the pipeline can meet: optional sign followed by decimal digits
(surrounding whitespace trimmed, empty string coerces to 0); everything else
is `NaN`, modelled as `none`. -/
def jsNumberOfString (s : String) : Option Int :=
  let cs := (s.data.dropWhile (fun c => c = ' ' || c = '\t' || c = '\n' || c = '\r')).reverse
  let cs := (cs.dropWhile (fun c => c = ' ' || c = '\t' || c = '\n' || c = '\r')).reverse
  match cs with
  | [] => some 0
  | _ =>
    let (sign, digits) :=
      match cs with
      | '-' :: rest => (true, rest)
      | '+' :: rest => (false, rest)
      | rest => (false, rest)
    if digits ≠ [] ∧ digits.all (fun c => '0' ≤ c ∧ c ≤ '9') then
      let nat := digits.foldl (fun acc c => acc * 10 + (c.toNat - 48)) (0 : Nat)
      some (if sign then -(nat : Int) else (nat : Int))
    else
      none

/-- `Number(condition.value)`; `none` models `NaN`. -/
def jsNumberF : FValue → Option Int
  | .n a => some a
  | .s s => jsNumberOfString s

/-- `String(condition.value)`. -/
def jsStringF : FValue → String
  | .s s => s
  | .n a => toString a

/-- Whether `sub` occurs contiguously inside `l` (JavaScript
`String.prototype.includes`). -/
def containsSub : List Char → List Char → Bool
  | _, [] => true
  | [], _ :: _ => false
  | c :: rest, sub => sub.isPrefixOf (c :: rest) || containsSub rest sub

/-- JavaScript `value.includes(String(condition.value))` on strings. -/
def strIncludes (hay sub : String) : Bool :=
  containsSub hay.data sub.data

/-- One iteration of the `switch` in `ProcessingQueue.checkFilters`
(lines 486–515): `true` iff the condition does not `return false`. -/
def evalCondition (r : JsRecord) (c : FilterCondition) : Bool :=
  let value := objLookup r c.field
  match c.op with
  | .eq => jsStrictEq value c.value
  | .ne => !jsStrictEq value c.value
  | .gt =>
    match value with
    | some (.n a) =>
      match jsNumberF c.value with
      | some bound => decide (bound < a)
      | none => true
    | _ => false
  | .lt =>
    match value with
    | some (.n a) =>
      match jsNumberF c.value with
      | some bound => decide (a < bound)
      | none => true
    | _ => false
  | .contains =>
    match value with
    | some (.s s) => strIncludes s (jsStringF c.value)
    | _ => false
  | .not_contains =>
    match value with
    | some (.s s) => !strIncludes s (jsStringF c.value)
    | _ => false

/-- `ProcessingQueue.checkFilters` (lines 477–519): loop over the conditions,
returning `false` at the first failing condition, `true` otherwise. -/
def checkFilters (r : JsRecord) : List FilterCondition → Bool
  | [] => true
  | c :: rest => if evalCondition r c then checkFilters r rest else false

/-- The `if (!conditions) return true` guard on the optional field. -/
def checkFiltersOpt (r : JsRecord) : Option (List FilterCondition) → Bool
  | none => true
  | some cs => checkFilters r cs

/-- `true` iff the looked-up value is a JavaScript number
(`typeof value === 'number'`). -/
def isNumericValue : Option RValue → Bool
  | some (.n _) => true
  | _ => false

/-- `true` iff the looked-up value is a JavaScript string. -/
def isStringValue : Option RValue → Bool
  | some (.s _) => true
  | _ => false

/-! ## PII detector and redactor

From `src/server/lib/pii.ts`.  The raw matches produced by the regular
expression engine and the NLP library (`detectPatternPII`,
`detectPersonNames`, `detectAddresses`, custom patterns) are abstracted as an
input list of `PIIMatch` values; every such producer yields spans of at least
one character, so raw matches satisfy `start < stop`.  Text is `List Char`
(offsets are list indices), confidences are rationals. -/

/-- The `PIIType` union (pii.ts lines 3–13). -/
inductive PIIType where
  | email
  | phone
  | ssn
  | credit_card
  | ip_address
  | person_name
  | address
  | date_of_birth
  | url
  | custom
deriving DecidableEq, Repr

/-- The source-level spelling of a `PIIType`. -/
def piiTypeName : PIIType → List Char
  | .email => "email".data
  | .phone => "phone".data
  | .ssn => "ssn".data
  | .credit_card => "credit_card".data
  | .ip_address => "ip_address".data
  | .person_name => "person_name".data
  | .address => "address".data
  | .date_of_birth => "date_of_birth".data
  | .url => "url".data
  | .custom => "custom".data

/-- A detected span (pii.ts lines 15–21).  The source field `end` is a Lean
keyword and is called `stop` here. -/
structure PIIMatch where
  type : PIIType
  value : List Char
  start : Nat
  stop : Nat
  confidence : Rat
deriving DecidableEq, Repr

/-- The comparator of `deduplicateMatches` (pii.ts lines 151–154): start
offset ascending, then confidence descending.  `Array.prototype.sort` is a
stable sort consistent with the comparator; `List.insertionSort` is such a
sort. -/
def dedupLe (a b : PIIMatch) : Prop :=
  a.start < b.start ∨ (a.start = b.start ∧ b.confidence ≤ a.confidence)

instance : DecidableRel dedupLe := fun a b => by
  unfold dedupLe; infer_instance

/-- Sort raw matches by start ascending then confidence descending. -/
def sortMatches (ms : List PIIMatch) : List PIIMatch :=
  List.insertionSort dedupLe ms

/-- The three-disjunct overlap test of `deduplicateMatches`
(pii.ts lines 160–165). -/
def overlapsJs (m e : PIIMatch) : Bool :=
  decide ((e.start ≤ m.start ∧ m.start < e.stop) ∨
    (e.start < m.stop ∧ m.stop ≤ e.stop) ∨
    (m.start ≤ e.start ∧ e.stop ≤ m.stop))

/-- `deduplicateMatches` (pii.ts lines 149–173): walk the sorted list and
accept a match only if it does not overlap an already accepted one. -/
def deduplicateMatches (ms : List PIIMatch) : List PIIMatch :=
  (sortMatches ms).foldl
    (fun result m => if result.any (overlapsJs m) then result else result ++ [m])
    []

/-- `detectPII` (pii.ts lines 178–240) with the regex/NLP match producers
abstracted: the returned match list is the deduplication of the merged raw
matches. -/
def detectPIIMatches (raw : List PIIMatch) : List PIIMatch :=
  deduplicateMatches raw

/-- Two spans intersect (open or closed intersection of non-empty
intervals). -/
def intersects (a b : PIIMatch) : Prop :=
  a.start < b.stop ∧ b.start < a.stop

instance : ∀ a b : PIIMatch, Decidable (intersects a b) := fun a b => by
  unfold intersects; infer_instance

/-- The spec's overlap-resolution rule, stated with plain span
intersection: sort by start ascending then confidence descending, accept a
match iff its span intersects no already accepted match. -/
def specResolve (ms : List PIIMatch) : List PIIMatch :=
  (sortMatches ms).foldl
    (fun acc m => if acc.any (fun e => decide (intersects m e)) then acc else acc ++ [m])
    []

/-- Options of `redactPII` (pii.ts lines 245–257); `redactionLabels` models
the optional `Record<PIIType, string>` argument (a label is "provided" when
the key is present with a truthy, i.e. non-empty, string value). -/
structure RedactOptions where
  redactionChar : List Char := ['*']
  preserveLength : Bool := false
  redactionLabels : Option (PIIType → Option (List Char)) := none

/-- The bracketed uppercase tag used as the default replacement. -/
def bracketTag (t : PIIType) : List Char :=
  '[' :: (piiTypeName t).map Char.toUpper ++ [']']

/-- Replacement when no truthy caller label exists (pii.ts lines 274–278). -/
def redactFallback (opts : RedactOptions) (m : PIIMatch) : List Char :=
  if opts.preserveLength then
    (List.replicate m.value.length opts.redactionChar).flatten
  else
    bracketTag m.type

/-- Replacement selection (pii.ts lines 272–278):
`redactionLabels && redactionLabels[match.type]` is JavaScript truthiness,
so an absent map, an absent key, or an empty-string label all fall through. -/
def replacementFor (opts : RedactOptions) (m : PIIMatch) : List Char :=
  match opts.redactionLabels with
  | some labels =>
    match labels m.type with
    | some l => if l ≠ [] then l else redactFallback opts m
    | none => redactFallback opts m
  | none => redactFallback opts m

/-- Comparator of the redaction sort (pii.ts line 267): start descending. -/
def descOrder (a b : PIIMatch) : Prop := b.start ≤ a.start

instance : DecidableRel descOrder := fun a b => by
  unfold descOrder; infer_instance

/-- One splice: `text.slice(0, start) + replacement + text.slice(end)`. -/
def spliceOne (t : List Char) (m : PIIMatch) (rep : List Char) : List Char :=
  t.take m.start ++ rep ++ t.drop m.stop

/-- The replacement loop of `redactPII` (pii.ts lines 269–284). -/
def redactApply (text : List Char) (opts : RedactOptions)
    (ms : List PIIMatch) : List Char :=
  ms.foldl (fun t m => spliceOne t m (replacementFor opts m)) text

/-- `redactPII` (pii.ts lines 245–287) with the accepted match list of
`detectPII` abstracted as the `matches` argument: return the text unchanged
when there are no matches, else splice replacements in descending start
order. -/
def redactPIIModel (text : List Char) (opts : RedactOptions)
    (ms : List PIIMatch) : List Char :=
  if ms = [] then text
  else redactApply text opts (List.insertionSort descOrder ms)

/-- The spec's replacement text: caller label for the type if provided,
else (with `preserveLength`) the redaction character repeated to the match
length, else a bracketed uppercase type tag written out per type. -/
def specTag : PIIType → List Char
  | .email => "[EMAIL]".data
  | .phone => "[PHONE]".data
  | .ssn => "[SSN]".data
  | .credit_card => "[CREDIT_CARD]".data
  | .ip_address => "[IP_ADDRESS]".data
  | .person_name => "[PERSON_NAME]".data
  | .address => "[ADDRESS]".data
  | .date_of_birth => "[DATE_OF_BIRTH]".data
  | .url => "[URL]".data
  | .custom => "[CUSTOM]".data

/-- Spec-side replacement selection. -/
def specReplacement (opts : RedactOptions) (m : PIIMatch) : List Char :=
  match opts.redactionLabels with
  | some labels =>
    match labels m.type with
    | some l =>
      if l ≠ [] then l
      else if opts.preserveLength then
        (List.replicate m.value.length opts.redactionChar).flatten
      else specTag m.type
    | none =>
      if opts.preserveLength then
        (List.replicate m.value.length opts.redactionChar).flatten
      else specTag m.type
  | none =>
    if opts.preserveLength then
      (List.replicate m.value.length opts.redactionChar).flatten
    else specTag m.type

/-- Spec-side redaction, left to right: emit the untouched segment before
each match, then its replacement, finally the tail after the last match. -/
def specRedactGo (text : List Char) (opts : RedactOptions) :
    Nat → List PIIMatch → List Char
  | pos, [] => text.drop pos
  | pos, m :: rest =>
    (text.drop pos).take (m.start - pos) ++ specReplacement opts m ++
      specRedactGo text opts m.stop rest

/-- Spec-side redaction of a whole text against ascending matches. -/
def specRedact (text : List Char) (opts : RedactOptions)
    (ms : List PIIMatch) : List Char :=
  specRedactGo text opts 0 ms

/-! ## Processing queue and job lifecycle

From `ProcessingQueue` (processing-queue.service.ts).  The persisted job row
carries the columns of the `processing_jobs` drizzle schema the pipeline
reads back (`inputRecordCount`, `outputRecordCount`, `piiDetectedCount`,
`filteredOutCount`) together with the column names the worker writes
(`totalRecords`, `processedRecords`).  Each `db.update(...).set({...})` is an
explicit `JobUpdate` record applied last-write-wins per field, so the full
write trace of a run is observable.  `detectPII`/`redactPII` are abstracted
as oracle functions `hasPII`/`redactFn` (their internals are verified
separately above), and blob I/O is out of scope: the decoded record list is
the input. -/

/-- Job lifecycle status (schema comment: pending, processing, completed,
failed, cancelled). -/
inductive JobStatus where
  | pending
  | processing
  | completed
  | failed
  | cancelled
deriving DecidableEq, Repr

/-- The persisted `processing_jobs` row (fields the pipeline touches;
`startedSet`/`completedSet` model whether `startedAt`/`completedAt` are
non-null). -/
structure JobRow where
  status : JobStatus := .pending
  progress : Int := 0
  inputRecordCount : Option Int := none
  outputRecordCount : Option Int := none
  piiDetectedCount : Option Int := none
  filteredOutCount : Option Int := none
  totalRecords : Option Int := none
  processedRecords : Option Int := none
  errorMessage : Option String := none
  startedSet : Bool := false
  completedSet : Bool := false
deriving DecidableEq, Repr

/-- One `.set({...})` payload of a `db.update` issued by the worker. -/
structure JobUpdate where
  status : Option JobStatus := none
  progress : Option Int := none
  totalRecords : Option Int := none
  processedRecords : Option Int := none
  errorMessage : Option String := none
  startedSet : Bool := false
  completedSet : Bool := false
deriving DecidableEq, Repr

/-- Apply one update to the row: present fields overwrite, absent fields are
untouched. -/
def applyUpdate (r : JobRow) (u : JobUpdate) : JobRow :=
  { r with
    status := u.status.getD r.status
    progress := u.progress.getD r.progress
    totalRecords := u.totalRecords.orElse fun _ => r.totalRecords
    processedRecords := u.processedRecords.orElse fun _ => r.processedRecords
    errorMessage := u.errorMessage.orElse fun _ => r.errorMessage
    startedSet := r.startedSet || u.startedSet
    completedSet := r.completedSet || u.completedSet }

/-- The parts of `ProcessingJobConfig` the batch loop consumes. -/
structure PQConfig where
  enablePiiDetection : Bool := true
  enablePiiRedaction : Bool := false
  fieldMappings : Option (List (String × String)) := none
  filterConditions : Option (List FilterCondition) := none
  batchSize : Option Nat := none

/-- `config.batchSize || 100` (JavaScript `||`: 0 and absence both yield the
default), so the effective batch size is always positive. -/
def effBatchSize (c : PQConfig) : Nat :=
  match c.batchSize with
  | some b => if b = 0 then 100 else b
  | none => 100

/-- JavaScript object property assignment: update in place if the key
exists, else append. -/
def objSet (r : JsRecord) (k : String) (v : RValue) : JsRecord :=
  match r with
  | [] => [(k, v)]
  | (k', v') :: rest => if k' = k then (k, v) :: rest else (k', v') :: objSet rest k v

/-- `ProcessingQueue.applyFieldMappings` (lines 452–472): copy every mapped
source field under its new name, then pass through every original field that
is not a mapping source. -/
def applyFieldMappings (record : JsRecord) (mappings : List (String × String)) :
    JsRecord :=
  let mapped := mappings.foldl
    (fun res kv =>
      match objLookup record kv.2 with
      | some v => objSet res kv.1 v
      | none => res)
    ([] : JsRecord)
  record.foldl
    (fun res kv =>
      if (mappings.map Prod.snd).contains kv.1 then res else objSet res kv.1 kv.2)
    mapped

/-- Math.round on the non-negative progress ratio: `⌊q + 1/2⌋`. -/
def jsRound (q : Rat) : Int := ⌊q + 1 / 2⌋

/-- The per-batch progress value
`Math.round(((i + batch.length) / totalRecords) * 100)`. -/
def progressFormula (total p : Nat) : Int :=
  jsRound ((p : Rat) / (total : Rat) * 100)

/-- The per-record body of the batch loop (processJob lines 253–294):
field mapping, then filtering (`none` = record dropped), then the PII pass
over every string-valued field, counting one detection per field with a
match and redacting it when enabled.  Returns the surviving record (if any)
and the number of `piiDetections++` increments it contributed. -/
def transformRecord (cfg : PQConfig) (hasPII : String → Bool)
    (redactFn : String → String) (record : JsRecord) :
    Option JsRecord × Nat :=
  let r1 := match cfg.fieldMappings with
    | some ms => applyFieldMappings record ms
    | none => record
  if checkFiltersOpt r1 cfg.filterConditions = false then (none, 0)
  else if cfg.enablePiiDetection || cfg.enablePiiRedaction then
    let step := r1.foldl
      (fun (acc : JsRecord × Nat) kv =>
        match kv.2 with
        | RValue.s sv =>
          if hasPII sv then
            (if cfg.enablePiiRedaction then
                objSet acc.1 kv.1 (RValue.s (redactFn sv))
              else acc.1,
             acc.2 + 1)
          else acc
        | _ => acc)
      (r1, 0)
    (some step.1, step.2)
  else (some r1, 0)

/-- Result of running the batch loop: the ordered `db.update` payloads it
issued, the in-memory `piiDetections` counter, the accumulated output
records, and whether the abort check fired. -/
structure LoopResult where
  updates : List JobUpdate
  piiDetections : Nat
  outputRecords : List JsRecord
  aborted : Bool
deriving Repr

/-- `controller.signal.aborted` at the check before batch `batchIdx`: true
iff `cancel` was issued during some earlier batch. -/
def abortObserved : Option Nat → Nat → Bool
  | some c, batchIdx => decide (c < batchIdx)
  | none, _ => false

/-- The `status: cancelled, completedAt` write `cancel(jobId)` itself issues
(service lines 74–80), landing during the batch it interrupts. -/
def cancelWrite : Option Nat → Nat → List JobUpdate
  | some c, batchIdx =>
    if c = batchIdx then [{ status := some .cancelled, completedSet := true }]
    else []
  | none, _ => []

/-- The batch loop of `processJob` (lines 243–314).  `cancelDuring = some c`
means `cancel(jobId)` is issued while batch `c` is being processed: the
`cancel` method itself persists `status: cancelled` at that moment (emitted
here after batch `c`'s progress write) and sets the abort flag, which the
loop's `controller.signal.aborted` check observes at the start of every
later batch.  `fuel` is a structural-recursion bound; callers pass
`records.length`, which suffices because every iteration consumes at least
one record (`effBatchSize` is positive). -/
def batchLoop (cfg : PQConfig) (hasPII : String → Bool)
    (redactFn : String → String) (cancelDuring : Option Nat) (total : Nat) :
    Nat → List JsRecord → Nat → Nat → Nat → List JsRecord → LoopResult
  | _, [], _, _, piiAcc, outAcc => ⟨[], piiAcc, outAcc, false⟩
  | 0, _ :: _, _, _, piiAcc, outAcc => ⟨[], piiAcc, outAcc, false⟩
  | fuel + 1, r :: rest, done, batchIdx, piiAcc, outAcc =>
    if abortObserved cancelDuring batchIdx then
      ⟨[], piiAcc, outAcc, true⟩
    else
      let B := effBatchSize cfg
      let batch := (r :: rest).take B
      let results := batch.map (transformRecord cfg hasPII redactFn)
      let kept := results.filterMap Prod.fst
      let piiNew := results.foldl (fun a p => a + p.2) 0
      let done' := done + batch.length
      let progW : JobUpdate :=
        { progress := some (progressFormula total done'),
          processedRecords := some (done' : Int) }
      let next := batchLoop cfg hasPII redactFn cancelDuring total fuel
        ((r :: rest).drop B) done' (batchIdx + 1) (piiAcc + piiNew)
        (outAcc ++ kept)
      ⟨progW :: cancelWrite cancelDuring batchIdx ++ next.updates,
        next.piiDetections, next.outputRecords, next.aborted⟩

/-- `processJob` (lines 166–385) as a write trace: the initial
`status: processing` update, the `totalRecords` update, the batch loop, then
either the catch handler's `status: failed` update (when the abort check
threw `Error('Job cancelled')`) or the dataset insert and the completion
update `status: completed, progress: 100,
processedRecords: processedRecords.length`. -/
def runJobOutcome (records : List JsRecord) (cfg : PQConfig)
    (hasPII : String → Bool) (redactFn : String → String)
    (cancelDuring : Option Nat) : LoopResult × Bool :=
  let total := records.length
  let loop := batchLoop cfg hasPII redactFn cancelDuring total
    records.length records 0 0 0 []
  let pre : List JobUpdate :=
    [{ status := some .processing, progress := some 0, startedSet := true },
     { totalRecords := some (total : Int) }]
  if loop.aborted then
    (⟨pre ++ loop.updates ++
        [{ status := some .failed, completedSet := true,
           errorMessage := some "Job cancelled" }],
      loop.piiDetections, loop.outputRecords, true⟩,
     false)
  else
    (⟨pre ++ loop.updates ++
        [{ status := some .completed, progress := some 100,
           processedRecords := some (loop.outputRecords.length : Int),
           completedSet := true }],
      loop.piiDetections, loop.outputRecords, false⟩,
     true)

/-- The ordered list of `db.update` payloads a run issues. -/
def runJobUpdates (records : List JsRecord) (cfg : PQConfig)
    (hasPII : String → Bool) (redactFn : String → String)
    (cancelDuring : Option Nat) : List JobUpdate :=
  (runJobOutcome records cfg hasPII redactFn cancelDuring).1.updates

/-- The job row after a run, starting from the row the jobs controller
created. -/
def runJobRow (records : List JsRecord) (cfg : PQConfig)
    (hasPII : String → Bool) (redactFn : String → String)
    (initRow : JobRow) (cancelDuring : Option Nat) : JobRow :=
  (runJobUpdates records cfg hasPII redactFn cancelDuring).foldl
    applyUpdate initRow

/-- Spec-side cumulative processed-record counts after each batch: from
`done`, step by `B` capped at `total`. -/
def specCounts (B total : Nat) : Nat → Nat → List Nat
  | 0, _ => []
  | fuel + 1, done =>
    if total ≤ done then []
    else
      let done' := min (done + B) total
      done' :: specCounts B total fuel done'

/-! ## Job scheduler claiming (processQueue) and the jobs controller

`processQueue` (lines 124–161) claims pending jobs with
`select().where(status = 'pending').limit(availableSlots)` — a query with no
ordering clause, whose SQL semantics lets the database return the matching
rows in any order.  `selectPendingNoOrder` models the query as taking the
first `n` elements of an arbitrary permutation of the pending rows. -/

/-- A `processing_jobs` row as the scheduler query sees it. -/
structure QueueJob where
  id : Nat
  createdAt : Nat
  status : JobStatus
deriving DecidableEq, Repr

/-- The rows matching `status = 'pending'`, in table order. -/
def pendingJobsOf (table : List QueueJob) : List QueueJob :=
  table.filter (fun j => j.status = JobStatus.pending)

/-- `SELECT ... WHERE status = 'pending' LIMIT n` with no ORDER BY: the
caller supplies the row order `perm` the database chose (any permutation of
the pending rows). -/
def selectPendingNoOrder (table perm : List QueueJob) (n : Nat) :
    List QueueJob :=
  let _ := table
  perm.take n

/-- A project row as the jobs controller reads it. -/
structure ProjectRow where
  id : Nat
  organisationId : Nat
  deleted : Bool
deriving DecidableEq, Repr

/-- A data-source row as the jobs controller reads it. -/
structure DataSourceRow where
  id : Nat
  projectId : Nat
  status : String
  recordCount : Option Int
  deleted : Bool
deriving DecidableEq, Repr

/-- A schema-mapping row as the jobs controller reads it. -/
structure MappingRow where
  id : Nat
  projectId : Nat
deriving DecidableEq, Repr

/-- The row `create` inserts; `status` is the schema default `pending`. -/
structure NewJob where
  id : Nat
  projectId : Nat
  dataSourceId : Nat
  schemaMappingId : Option Nat
  status : JobStatus
  outputFormat : String
  outputName : String
  inputRecordCount : Int
deriving DecidableEq, Repr

/-- `POST /api/jobs` request body (after validation middleware). -/
structure CreateInput where
  projectId : Option Nat
  dataSourceId : Nat
  schemaMappingId : Option Nat
  outputFormat : String
  outputName : Option String
deriving DecidableEq, Repr

/-- The stores the jobs controller touches; `enqueueCalls` records every
`enqueue(jobId)`/`enqueueJob(jobId)` invocation made while handling the
request. -/
structure CtrlDb where
  projects : List ProjectRow
  dataSources : List DataSourceRow
  mappings : List MappingRow
  jobs : List NewJob
  auditCount : Nat
  enqueueCalls : List Nat
deriving DecidableEq, Repr

/-- The error responses the `create` controller can throw. -/
inductive ApiError where
  | badRequest (msg : String)
  | notFound (what : String)
  | forbidden
deriving DecidableEq, Repr

/-- The `create` jobs controller (src/unnamed/part_006 lines 95–195):
validate project access, require the data source to exist in the project and
be `ready`, validate the schema mapping if given, insert the job row (the
schema defaults `status` to `pending`) and an audit log, and respond.  The
handler contains no call into the processing queue, so `enqueueCalls` is
left unchanged.  `outputName || ...` and `schemaMappingId || null` model the
source's truthiness guards at the `Option` level; `defaultName` stands for
the generated `export-${Date.now()}` name. -/
def createJobModel (db : CtrlDb) (userOrg : Nat) (input : CreateInput)
    (newId : Nat) (defaultName : String) : Except ApiError (CtrlDb × NewJob) :=
  match input.projectId with
  | none => .error (.badRequest "projectId is required")
  | some pid =>
    match db.projects.find? (fun p => p.id = pid && !p.deleted) with
    | none => .error (.notFound "Project")
    | some proj =>
      if proj.organisationId ≠ userOrg then .error .forbidden
      else
        match db.dataSources.find?
            (fun d => d.id = input.dataSourceId && d.projectId = pid && !d.deleted) with
        | none => .error (.notFound "Data source")
        | some ds =>
          if ds.status ≠ "ready" then
            .error (.badRequest "Data source is not ready for processing")
          else
            let mappingOk :=
              match input.schemaMappingId with
              | some mid =>
                (db.mappings.find? (fun m => m.id = mid && m.projectId = pid)).isSome
              | none => true
            if !mappingOk then .error (.notFound "Schema mapping")
            else
              let job : NewJob :=
                { id := newId
                  projectId := pid
                  dataSourceId := input.dataSourceId
                  schemaMappingId := input.schemaMappingId
                  status := .pending
                  outputFormat := input.outputFormat
                  outputName := input.outputName.getD defaultName
                  inputRecordCount := (ds.recordCount.getD 0 : Int) }
              .ok ({ db with jobs := db.jobs ++ [job],
                             auditCount := db.auditCount + 1 }, job)

/-! ## Record codec

From `parseSourceData` and `convertToOutputFormat`
(processing-queue.service.ts lines 390–431).  `json` decoding/encoding is
`JSON.parse` / `JSON.stringify(records, null, 2)`, `jsonl` splits on
newlines, drops blank lines and parses each line / joins compact
`JSON.stringify(r)` lines with newlines.  Flat scalar record values are
strings, numbers (modelled as integers — the integral fragment of JSON
numbers, which `JSON.parse`/`JSON.stringify` round-trip exactly), booleans
and null.  `JSON.parse` is modelled by a parser for this flat-record
fragment of JSON, with the whitespace set { space, newline, tab, CR } and
the string-escape productions of the JSON grammar; `JSON.stringify`'s quote
algorithm escapes the quote, the backslash, the named control characters
`\b \f \n \r \t` and every other code point below U+0020 as `\u00XX`. -/

/-- A flat scalar value of a codec record. -/
inductive JScalar where
  | s (v : List Char)
  | i (v : Int)
  | b (v : Bool)
  | jnull
deriving DecidableEq, Repr

/-- A decoded record: key/value pairs in textual (insertion) order. -/
abbrev JRecord : Type := List (List Char × JScalar)

/-- The two round-trippable serialization formats of the claim (`csv` is
handled by an external library and is lossy). -/
inductive CodecFormat where
  | json
  | jsonl
deriving DecidableEq, Repr

/-- Decimal digit character. -/
def digitChar (n : Nat) : Char :=
  if n = 0 then '0' else if n = 1 then '1' else if n = 2 then '2'
  else if n = 3 then '3' else if n = 4 then '4' else if n = 5 then '5'
  else if n = 6 then '6' else if n = 7 then '7' else if n = 8 then '8'
  else if n = 9 then '9' else '0'

/-- Lowercase hexadecimal digit character (as `Number.prototype.toString(16)`
produces). -/
def hexDigitChar (n : Nat) : Char :=
  if n < 10 then digitChar n
  else if n = 10 then 'a' else if n = 11 then 'b' else if n = 12 then 'c'
  else if n = 13 then 'd' else if n = 14 then 'e' else if n = 15 then 'f'
  else '0'

/-- Decimal digits of a natural number, most significant first
(JavaScript's integer-to-string conversion). -/
def natToChars (n : Nat) : List Char :=
  if _h : n < 10 then [digitChar n]
  else natToChars (n / 10) ++ [digitChar (n % 10)]
termination_by n
decreasing_by exact Nat.div_lt_self (by omega) (by omega)

/-- `String(z)` for an integer-valued JavaScript number. -/
def intToChars (z : Int) : List Char :=
  if z < 0 then '-' :: natToChars z.natAbs else natToChars z.natAbs

/-- One character of `JSON.stringify`'s string quoting. -/
def escapeChar (c : Char) : List Char :=
  if c = '\x22' then ['\x5c', '\x22']
  else if c = '\x5c' then ['\x5c', '\x5c']
  else if c = '\x08' then ['\x5c', 'b']
  else if c = '\x0c' then ['\x5c', 'f']
  else if c = '\n' then ['\x5c', 'n']
  else if c = '\x0d' then ['\x5c', 'r']
  else if c = '\t' then ['\x5c', 't']
  else if c.toNat < 32 then
    ['\x5c', 'u', '0', '0', hexDigitChar (c.toNat / 16), hexDigitChar (c.toNat % 16)]
  else [c]

/-- A JSON string literal with quotes and escapes. -/
def encodeStrLit (s : List Char) : List Char :=
  '\x22' :: (s.map escapeChar).flatten ++ ['\x22']

/-- Serialize one scalar (identical in compact and pretty mode). -/
def encodeScalar : JScalar → List Char
  | .s str => encodeStrLit str
  | .i z => intToChars z
  | .b bv => if bv then ['t', 'r', 'u', 'e'] else ['f', 'a', 'l', 's', 'e']
  | .jnull => ['n', 'u', 'l', 'l']

/-- `Array.prototype.join`-style separator interleaving. -/
def joinSep (sep : List Char) : List (List Char) → List Char
  | [] => []
  | [x] => x
  | x :: y :: t => x ++ sep ++ joinSep sep (y :: t)

/-- One `"key":value` member, compact mode. -/
def encodeMemberC (kv : List Char × JScalar) : List Char :=
  encodeStrLit kv.1 ++ ':' :: encodeScalar kv.2

/-- `JSON.stringify(record)`: compact object serialization. -/
def encodeRecordC (r : JRecord) : List Char :=
  '\x7b' :: joinSep [','] (r.map encodeMemberC) ++ ['\x7d']

/-- One `    "key": value` member line, pretty mode at array depth. -/
def encodeMemberP (kv : List Char × JScalar) : List Char :=
  ' ' :: ' ' :: ' ' :: ' ' :: encodeStrLit kv.1 ++ ':' :: ' ' :: encodeScalar kv.2

/-- A record inside `JSON.stringify(records, null, 2)`: members on their own
lines at indent 4, closing brace at indent 2 (`{}` when empty). -/
def encodeRecordP (r : JRecord) : List Char :=
  match r with
  | [] => ['\x7b', '\x7d']
  | _ => '\x7b' :: '\n' :: joinSep [',', '\n'] (r.map encodeMemberP)
      ++ '\n' :: ' ' :: ' ' :: ['\x7d']

/-- `JSON.stringify(records, null, 2)`: the pretty top-level array. -/
def encodeJsonP (rs : List JRecord) : List Char :=
  match rs with
  | [] => ['[', ']']
  | _ => '[' :: '\n' ::
      joinSep [',', '\n'] (rs.map (fun r => ' ' :: ' ' :: encodeRecordP r))
      ++ '\n' :: [']']

/-- The JSON whitespace characters (also what matters for `trim` here). -/
def isWsChar (c : Char) : Bool :=
  c = ' ' || c = '\n' || c = '\t' || c = '\x0d'

/-- Skip leading whitespace. -/
def skipWs : List Char → List Char
  | [] => []
  | c :: r => if isWsChar c then skipWs r else c :: r

/-- Hexadecimal digit value. -/
def parseHex (c : Char) : Option Nat :=
  if '0' ≤ c ∧ c ≤ '9' then some (c.toNat - 48)
  else if 'a' ≤ c ∧ c ≤ 'f' then some (c.toNat - 87)
  else if 'A' ≤ c ∧ c ≤ 'F' then some (c.toNat - 55)
  else none

/-- Parse a string-literal body after the opening quote, handling the JSON
escape productions, up to and including the closing quote. -/
def parseStrBody : List Char → Option (List Char × List Char)
  | [] => none
  | c :: r =>
    if c = '\x22' then some ([], r)
    else if c = '\x5c' then
      match r with
      | [] => none
      | e :: r2 =>
        if e = '\x22' then (parseStrBody r2).map (fun p => ('\x22' :: p.1, p.2))
        else if e = '\x5c' then (parseStrBody r2).map (fun p => ('\x5c' :: p.1, p.2))
        else if e = '/' then (parseStrBody r2).map (fun p => ('/' :: p.1, p.2))
        else if e = 'b' then (parseStrBody r2).map (fun p => ('\x08' :: p.1, p.2))
        else if e = 'f' then (parseStrBody r2).map (fun p => ('\x0c' :: p.1, p.2))
        else if e = 'n' then (parseStrBody r2).map (fun p => ('\n' :: p.1, p.2))
        else if e = 'r' then (parseStrBody r2).map (fun p => ('\x0d' :: p.1, p.2))
        else if e = 't' then (parseStrBody r2).map (fun p => ('\t' :: p.1, p.2))
        else if e = 'u' then
          match r2 with
          | h1 :: h2 :: h3 :: h4 :: r3 =>
            match parseHex h1, parseHex h2, parseHex h3, parseHex h4 with
            | some a, some b, some c2, some d =>
              (parseStrBody r3).map (fun p =>
                (Char.ofNat (((a * 16 + b) * 16 + c2) * 16 + d) :: p.1, p.2))
            | _, _, _, _ => none
          | _ => none
        else none
    else (parseStrBody r).map (fun p => (c :: p.1, p.2))

/-- Decimal digit test. -/
def isDigitChar (c : Char) : Bool := 48 ≤ c.toNat && c.toNat ≤ 57

/-- Split a maximal run of leading decimal digits into their values. -/
def takeDigits : List Char → List Nat × List Char
  | [] => ([], [])
  | c :: r =>
    if isDigitChar c then
      let p := takeDigits r
      ((c.toNat - 48) :: p.1, p.2)
    else ([], c :: r)

/-- Value of a most-significant-first digit list. -/
def digitsVal (ds : List Nat) : Nat := ds.foldl (fun a d => a * 10 + d) 0

/-- Whether a number literal may legally end before this remainder (no
fraction or exponent follows — those lie outside the integral fragment). -/
def numTermOk : List Char → Bool
  | [] => true
  | c :: _ => !(isDigitChar c || c = '.' || c = 'e' || c = 'E')

/-- Parse an unsigned integer literal. -/
def parseNatNum (l : List Char) : Option (Nat × List Char) :=
  let p := takeDigits l
  if p.1 = [] then none
  else if numTermOk p.2 then some (digitsVal p.1, p.2) else none

/-- Parse an optionally signed integer literal. -/
def parseNum (l : List Char) : Option (Int × List Char) :=
  match l with
  | [] => none
  | c :: r =>
    if c = '-' then (parseNatNum r).map (fun p => (-(p.1 : Int), p.2))
    else (parseNatNum (c :: r)).map (fun p => ((p.1 : Int), p.2))

/-- Parse one scalar value (no leading whitespace). -/
def parseScalar (l : List Char) : Option (JScalar × List Char) :=
  match l with
  | [] => none
  | c :: r =>
    if c = '\x22' then (parseStrBody r).map (fun p => (JScalar.s p.1, p.2))
    else if c = 't' then
      match r with
      | 'r' :: 'u' :: 'e' :: r2 => some (.b true, r2)
      | _ => none
    else if c = 'f' then
      match r with
      | 'a' :: 'l' :: 's' :: 'e' :: r2 => some (.b false, r2)
      | _ => none
    else if c = 'n' then
      match r with
      | 'u' :: 'l' :: 'l' :: r2 => some (.jnull, r2)
      | _ => none
    else (parseNum (c :: r)).map (fun p => (JScalar.i p.1, p.2))

/-- One member-parsing step: key string, colon, scalar, then a comma
(continue via `next`) or the closing brace. -/
def parseMembersF (next : List Char → Option (JRecord × List Char))
    (l : List Char) : Option (JRecord × List Char) :=
  match skipWs l with
  | [] => none
  | c :: r =>
    if c = '\x22' then
      match parseStrBody r with
      | none => none
      | some (k, r2) =>
        match skipWs r2 with
        | [] => none
        | c2 :: r3 =>
          if c2 = ':' then
            match parseScalar (skipWs r3) with
            | none => none
            | some (v, r4) =>
              match skipWs r4 with
              | [] => none
              | c3 :: r5 =>
                if c3 = ',' then (next r5).map (fun p => ((k, v) :: p.1, p.2))
                else if c3 = '\x7d' then some ([(k, v)], r5)
                else none
          else none
    else none

/-- Parse the members of a non-empty object, consuming the closing brace;
`fuel` bounds the member count. -/
def parseMembers : Nat → List Char → Option (JRecord × List Char)
  | 0, _ => none
  | fuel + 1, l => parseMembersF (parseMembers fuel) l

/-- Parse one flat object. -/
def parseRecord (fuel : Nat) (l : List Char) : Option (JRecord × List Char) :=
  match skipWs l with
  | [] => none
  | c :: r =>
    if c = '\x7b' then
      match skipWs r with
      | [] => parseMembers fuel r
      | c2 :: r2 => if c2 = '\x7d' then some ([], r2) else parseMembers fuel r
    else none

/-- One array-element step: a record, then a comma (continue via `next`) or
the closing bracket. -/
def parseElemsF (next : List Char → Option (List JRecord × List Char))
    (mfuel : Nat) (l : List Char) : Option (List JRecord × List Char) :=
  match parseRecord mfuel l with
  | none => none
  | some (r, rest) =>
    match skipWs rest with
    | [] => none
    | c :: r2 =>
      if c = ',' then (next r2).map (fun p => (r :: p.1, p.2))
      else if c = ']' then some ([r], r2)
      else none

/-- Parse the elements of a non-empty array of flat objects, consuming the
closing bracket. -/
def parseElems : Nat → Nat → List Char → Option (List JRecord × List Char)
  | 0, _, _ => none
  | fuel + 1, mfuel, l => parseElemsF (parseElems fuel mfuel) mfuel l

/-- Parse a JSON array of flat objects. -/
def parseRecordsArray (fuel : Nat) (l : List Char) :
    Option (List JRecord × List Char) :=
  match skipWs l with
  | [] => none
  | c :: r =>
    if c = '[' then
      match skipWs r with
      | [] => parseElems fuel fuel r
      | c2 :: r2 => if c2 = ']' then some ([], r2) else parseElems fuel fuel r
    else none

/-- `content.split('\n')`. -/
def splitLines : List Char → List (List Char)
  | [] => [[]]
  | c :: r =>
    if c = '\n' then [] :: splitLines r
    else
      match splitLines r with
      | [] => [[c]]
      | h :: t => (c :: h) :: t

/-- `line.trim()` is truthy: the line contains a non-whitespace character. -/
def isTruthyLine (l : List Char) : Bool :=
  !(((l.dropWhile isWsChar).reverse.dropWhile isWsChar).reverse.isEmpty)

/-- `parseSourceData` restricted to the two round-trippable formats:
`JSON.parse(content)` for `json`; split on newlines, keep lines with truthy
`trim()`, `JSON.parse` each line for `jsonl`.  `none` models a thrown
parse error. -/
def decodeData (content : List Char) : CodecFormat → Option (List JRecord)
  | .json =>
    match parseRecordsArray (content.length + 1) content with
    | some (rs, rest) => if skipWs rest = [] then some rs else none
    | none => none
  | .jsonl =>
    ((splitLines content).filter isTruthyLine).mapM (fun line =>
      match parseRecord (line.length + 1) line with
      | some (r, rest) => if skipWs rest = [] then some r else none
      | none => none)

/-- `convertToOutputFormat` restricted to the two round-trippable formats:
`JSON.stringify(records, null, 2)` for `json`; newline-joined compact
`JSON.stringify(r)` lines for `jsonl`. -/
def encodeData (rs : List JRecord) : CodecFormat → List Char
  | .json => encodeJsonP rs
  | .jsonl => joinSep ['\n'] (rs.map encodeRecordC)

end Foundry

namespace Foundry

theorem checkFilters_eq_all (r : JsRecord) (cs : List FilterCondition) :
    checkFilters r cs = cs.all (evalCondition r) := by
  induction cs with
  | nil => rfl
  | cons c rest ih =>
    by_cases h : evalCondition r c = true <;> simp [checkFilters, h, ih]

theorem allFilterOps_complete (op : FOp) : op ∈ allFilterOps := by
  cases op <;> simp [allFilterOps]

/-- C3 counterexample: the claim says the supported operator set contains
`gte` (and `lte`), but the operator union type of the source has exactly six
members and `gte` is not among their spellings. -/
theorem C3_cex_no_gte_operator :
    (allFilterOps.map filterOpName).contains "gte" = false ∧
      (allFilterOps.map filterOpName).contains "lte" = false ∧
      allFilterOps.map filterOpName
        = ["eq", "ne", "gt", "lt", "contains", "not_contains"] := by
  decide

/-- C3 (amended): filter evaluation keeps a record iff it satisfies every
condition in the list (logical AND, hence independent of condition order),
where the supported operator set is exactly
`{eq, ne, gt, lt, contains, not_contains}` (no `gte`/`lte` exist); `gt`/`lt`
conditions fail closed when the record field value is not numeric, and
`contains`/`not_contains` fail closed when it is not a string. -/
theorem C3_filter_and_semantics :
    (∀ (r : JsRecord) (cs : List FilterCondition),
        checkFilters r cs = true ↔ ∀ c ∈ cs, evalCondition r c = true) ∧
      (∀ (r : JsRecord) (cs cs' : List FilterCondition),
          cs.Perm cs' → checkFilters r cs = checkFilters r cs') ∧
      (∀ (r : JsRecord) (c : FilterCondition),
          (c.op = .gt ∨ c.op = .lt) →
          isNumericValue (objLookup r c.field) = false →
          evalCondition r c = false) ∧
      (∀ (r : JsRecord) (c : FilterCondition),
          (c.op = .contains ∨ c.op = .not_contains) →
          isStringValue (objLookup r c.field) = false →
          evalCondition r c = false) := by
  refine ⟨?_, ?_, ?_, ?_⟩
  · intro r cs
    rw [checkFilters_eq_all, List.all_eq_true]
  · intro r cs cs' hperm
    rw [checkFilters_eq_all, checkFilters_eq_all, Bool.eq_iff_iff]
    simp only [List.all_eq_true]
    exact ⟨fun h c hc => h c (hperm.mem_iff.mpr hc),
      fun h c hc => h c (hperm.mem_iff.mp hc)⟩
  · intro r c hop hnum
    unfold evalCondition
    rcases hop with h | h <;> rw [h] <;>
      revert hnum <;>
      cases objLookup r c.field with
      | none => intro _; rfl
      | some v => cases v <;> simp [isNumericValue]
  · intro r c hop hstr
    unfold evalCondition
    rcases hop with h | h <;> rw [h] <;>
      revert hstr <;>
      cases objLookup r c.field with
      | none => intro _; rfl
      | some v => cases v <;> simp [isStringValue]

/-- C3 witness: a `gt` condition against a string-valued field fails closed
at a concrete input, via `C3_filter_and_semantics`. -/
theorem C3_filter_and_semantics_witness :
    evalCondition [("age", RValue.s "seventeen")]
      ⟨"age", FOp.gt, FValue.n 18⟩ = false :=
  C3_filter_and_semantics.2.2.1 [("age", RValue.s "seventeen")]
    ⟨"age", FOp.gt, FValue.n 18⟩ (Or.inl rfl) (by decide)

theorem intersects_symm {a b : PIIMatch} (h : intersects a b) : intersects b a :=
  ⟨h.2, h.1⟩

theorem overlapsJs_eq_intersects {m e : PIIMatch}
    (hm : m.start < m.stop) (he : e.start < e.stop) :
    overlapsJs m e = decide (intersects m e) := by
  unfold overlapsJs
  rw [decide_eq_decide]
  unfold intersects
  omega

theorem dedup_fold_spec (L : List PIIMatch) :
    ∀ acc : List PIIMatch,
      (∀ m ∈ L, m.start < m.stop) → (∀ m ∈ acc, m.start < m.stop) →
      acc.Pairwise (fun a b => ¬ intersects a b) →
      L.foldl (fun result m =>
          if result.any (overlapsJs m) then result else result ++ [m]) acc
        = L.foldl (fun acc' m =>
            if acc'.any (fun e => decide (intersects m e)) then acc'
            else acc' ++ [m]) acc ∧
      (L.foldl (fun result m =>
          if result.any (overlapsJs m) then result else result ++ [m]) acc
        ).Pairwise (fun a b => ¬ intersects a b) ∧
      ∀ m ∈ L.foldl (fun result m =>
          if result.any (overlapsJs m) then result else result ++ [m]) acc,
        m.start < m.stop := by
  induction L with
  | nil => exact fun acc _ hacc hpw => ⟨rfl, hpw, hacc⟩
  | cons m L ih =>
    intro acc hL hacc hpw
    have hm : m.start < m.stop := hL m (by simp)
    have hL' : ∀ x ∈ L, x.start < x.stop := fun x hx => hL x (by simp [hx])
    have hany : acc.any (overlapsJs m)
        = acc.any (fun e => decide (intersects m e)) := by
      induction acc with
      | nil => rfl
      | cons e rest ihr =>
        have he : e.start < e.stop := hacc e (by simp)
        simp only [List.any_cons, overlapsJs_eq_intersects hm he]
        rw [ihr (fun x hx => hacc x (by simp [hx])) (hpw.sublist (by simp))]
    simp only [List.foldl_cons, hany]
    by_cases hkeep : acc.any (fun e => decide (intersects m e)) = true
    · simp only [if_pos hkeep]
      exact ih acc hL' hacc hpw
    · simp only [if_neg hkeep]
      have hnone : ∀ e ∈ acc, ¬ intersects m e := by
        intro e he
        have := List.any_eq_false.mp (Bool.eq_false_iff.mpr hkeep) e he
        simpa using this
      have hacc' : ∀ x ∈ acc ++ [m], x.start < x.stop := by
        intro x hx
        rcases List.mem_append.mp hx with h | h
        · exact hacc x h
        · simp at h; subst h; exact hm
      have hpw' : (acc ++ [m]).Pairwise (fun a b => ¬ intersects a b) := by
        rw [List.pairwise_append]
        refine ⟨hpw, by simp, ?_⟩
        intro a ha b hb
        simp at hb; subst hb
        exact fun hint => hnone a ha (intersects_symm hint)
      exact ih (acc ++ [m]) hL' hacc' hpw'

/-- C6: for every raw match list whose spans are proper (every producer in
`detectPII` emits spans of at least one character), the accepted match list
is pairwise non-overlapping, and it equals the spec's rule: sort by start
ascending then confidence descending and greedily accept any match whose
span intersects no already-accepted match. -/
theorem C6_overlap_resolution (raw : List PIIMatch)
    (hproper : ∀ m ∈ raw, m.start < m.stop) :
    (detectPIIMatches raw).Pairwise (fun a b => ¬ intersects a b) ∧
      detectPIIMatches raw = specResolve raw := by
  have hs : ∀ m ∈ sortMatches raw, m.start < m.stop := fun m hm =>
    hproper m ((List.perm_insertionSort dedupLe raw).mem_iff.mp hm)
  have h := dedup_fold_spec (sortMatches raw) [] hs (by simp) (by simp)
  exact ⟨h.2.1, h.1⟩

/-- C6 witness: an email-shaped span nested inside a URL-shaped span of the
same confidence; the earlier span wins and the result does not overlap. -/
theorem C6_overlap_resolution_witness :
    (detectPIIMatches
        [⟨.email, "jane@example.com".data, 8, 24, 95 / 100⟩,
         ⟨.url, "https://example.com/x".data, 0, 30, 95 / 100⟩]).Pairwise
        (fun a b => ¬ intersects a b) ∧
      detectPIIMatches
          [⟨.email, "jane@example.com".data, 8, 24, 95 / 100⟩,
           ⟨.url, "https://example.com/x".data, 0, 30, 95 / 100⟩]
        = specResolve
            [⟨.email, "jane@example.com".data, 8, 24, 95 / 100⟩,
             ⟨.url, "https://example.com/x".data, 0, 30, 95 / 100⟩] :=
  C6_overlap_resolution _ (by decide)

theorem bracketTag_eq_specTag (t : PIIType) : bracketTag t = specTag t := by
  cases t <;> rfl

theorem replacementFor_eq_spec (opts : RedactOptions) (m : PIIMatch) :
    replacementFor opts m = specReplacement opts m := by
  unfold replacementFor specReplacement redactFallback
  cases opts.redactionLabels with
  | none => rw [bracketTag_eq_specTag]
  | some labels =>
    cases labels m.type with
    | none => rw [bracketTag_eq_specTag]
    | some l => rw [bracketTag_eq_specTag]

theorem orderedInsert_append_of (a : PIIMatch) :
    ∀ l : List PIIMatch, (∀ x ∈ l, ¬ descOrder a x) →
      List.orderedInsert descOrder a l = l ++ [a] := by
  intro l
  induction l with
  | nil => intro _; rfl
  | cons b rest ih =>
    intro h
    rw [List.orderedInsert, if_neg (h b (by simp)),
      ih (fun x hx => h x (by simp [hx]))]
    rfl

theorem insertionSort_desc_of_ascending :
    ∀ ms : List PIIMatch,
      List.Pairwise (fun a b : PIIMatch => a.start < b.start) ms →
      List.insertionSort descOrder ms = ms.reverse := by
  intro ms
  induction ms with
  | nil => intro _; rfl
  | cons m rest ih =>
    intro hpw
    rw [List.insertionSort, ih (List.Pairwise.of_cons hpw),
      orderedInsert_append_of m]
    · simp
    · intro x hx
      have hx' : x ∈ rest := by simpa using hx
      have hlt : m.start < x.start := (List.pairwise_cons.mp hpw).1 x hx'
      unfold descOrder
      omega

theorem gap_pairwise :
    ∀ ms : List PIIMatch, List.Chain' (fun a b => a.stop ≤ b.start) ms →
      (∀ m ∈ ms, m.start < m.stop) →
      List.Pairwise (fun a b : PIIMatch => a.stop ≤ b.start) ms := by
  intro ms
  induction ms with
  | nil => intro _ _; exact List.Pairwise.nil
  | cons a rest ih =>
    intro hch hp
    have hrest := ih hch.tail (fun m hm => hp m (List.mem_cons_of_mem _ hm))
    rw [List.pairwise_cons]
    refine ⟨?_, hrest⟩
    intro b hb
    cases rest with
    | nil => simp at hb
    | cons c rest' =>
      have hac : a.stop ≤ c.start := (List.chain'_cons.mp hch).1
      rcases List.mem_cons.mp hb with rfl | hb'
      · exact hac
      · have hcb : c.stop ≤ b.start := (List.pairwise_cons.mp hrest).1 b hb'
        have hc : c.start < c.stop := hp c (by simp)
        omega

theorem seg_take_drop_eq (text rep : List Char) (a b j k : Nat)
    (hjk : j + k ≤ a) (ha : a ≤ text.length) :
    ((text.take a ++ rep ++ text.drop b).drop j).take k
      = (text.drop j).take k := by
  have h1 : ∀ L : List Char, (L.drop j).take k = (L.take (j + k)).drop j := by
    intro L
    rw [List.drop_take]
    congr 1
    omega
  rw [h1, h1]
  have h2 : (text.take a ++ rep ++ text.drop b).take (j + k)
      = text.take (j + k) := by
    have hA : j + k ≤ (text.take a).length := by
      rw [List.length_take]
      omega
    rw [List.append_assoc, List.take_append_of_le_length hA, List.take_take]
    congr 1
    omega
  rw [h2]

theorem spliceOne_drop (text rep : List Char) (m : PIIMatch) (pos : Nat)
    (hpos : pos ≤ m.start) (hlen : m.start ≤ text.length) :
    (spliceOne text m rep).drop pos
      = (text.drop pos).take (m.start - pos) ++ rep ++ text.drop m.stop := by
  unfold spliceOne
  rw [List.append_assoc,
    List.drop_append_of_le_length (by rw [List.length_take]; omega),
    List.drop_take, ← List.append_assoc]

theorem specRedactGo_splice (opts : RedactOptions) (m : PIIMatch) :
    ∀ (ms : List PIIMatch) (text : List Char) (pos : Nat),
      (∀ x ∈ ms, x.start < x.stop ∧ x.stop ≤ m.start) →
      pos ≤ m.start → m.start ≤ text.length →
      specRedactGo (spliceOne text m (specReplacement opts m)) opts pos ms
        = specRedactGo text opts pos (ms ++ [m]) := by
  intro ms
  induction ms with
  | nil =>
    intro text pos hx hpos hlen
    simp only [List.nil_append, specRedactGo]
    rw [spliceOne_drop text _ m pos hpos hlen]
  | cons x rest ih =>
    intro text pos hx hpos hlen
    have hxp := hx x (by simp)
    simp only [List.cons_append, specRedactGo, spliceOne]
    rw [seg_take_drop_eq text (specReplacement opts m) m.start m.stop pos
      (x.start - pos) (by omega) hlen]
    have ih' := ih text x.stop
      (fun y hy => hx y (List.mem_cons_of_mem _ hy)) hxp.2 hlen
    simp only [spliceOne] at ih'
    rw [ih']
    rfl

theorem spliceOne_length_ge (text rep : List Char) (m : PIIMatch)
    (hlen : m.start ≤ text.length) :
    m.start ≤ (spliceOne text m rep).length := by
  simp only [spliceOne, List.length_append, List.length_take, List.length_drop]
  omega

theorem redactApply_eq_go (opts : RedactOptions) :
    ∀ (ms : List PIIMatch) (text : List Char),
      List.Pairwise (fun a b : PIIMatch => a.stop ≤ b.start) ms →
      (∀ x ∈ ms, x.start < x.stop ∧ x.stop ≤ text.length) →
      redactApply text opts ms.reverse = specRedactGo text opts 0 ms := by
  intro ms
  induction ms using List.reverseRecOn with
  | nil => intro text _ _; rfl
  | append_singleton init m ih =>
    intro text hpw hb
    have hm := hb m (by simp)
    have hmlen : m.start ≤ text.length := by omega
    have hpairs : ∀ x ∈ init, x.stop ≤ m.start := by
      have h := List.pairwise_append.mp hpw
      intro x hx
      exact h.2.2 x hx m (by simp)
    have hinitpw : List.Pairwise (fun a b : PIIMatch => a.stop ≤ b.start) init :=
      (List.pairwise_append.mp hpw).1
    have hball : ∀ x ∈ init, x.start < x.stop ∧
        x.stop ≤ (spliceOne text m (specReplacement opts m)).length := by
      intro x hx
      have hxb := hb x (List.mem_append_left _ hx)
      exact ⟨hxb.1, le_trans (hpairs x hx)
        (spliceOne_length_ge text _ m hmlen)⟩
    have ih' := ih (spliceOne text m (specReplacement opts m)) hinitpw hball
    rw [List.reverse_append]
    simp only [List.reverse_cons, List.reverse_nil, List.nil_append,
      List.singleton_append, redactApply, List.foldl_cons,
      replacementFor_eq_spec] at ih' ⊢
    rw [ih']
    exact specRedactGo_splice opts m init text 0
      (fun y hy => ⟨(hb y (List.mem_append_left _ hy)).1, hpairs y hy⟩)
      (Nat.zero_le _) hmlen

/-- C7: redaction (which the source applies by splicing replacements in
descending start order) equals the spec's left-to-right interleaving of
untouched segments with per-match replacement text, where the replacement is
the caller label for the match type if provided, else the redaction
character repeated to the original match length when `preserveLength` is
set, else the bracketed uppercase type tag. -/
theorem C7_redaction (text : List Char) (opts : RedactOptions)
    (ms : List PIIMatch)
    (hchain : List.Chain' (fun a b => a.stop ≤ b.start) ms)
    (hbound : ∀ m ∈ ms, m.start < m.stop ∧ m.stop ≤ text.length) :
    redactPIIModel text opts ms = specRedact text opts ms := by
  unfold redactPIIModel specRedact
  by_cases hnil : ms = []
  · subst hnil
    rw [if_pos rfl]
    rfl
  · rw [if_neg hnil]
    have hpw := gap_pairwise ms hchain (fun m hm => (hbound m hm).1)
    have hstarts : List.Pairwise (fun a b : PIIMatch => a.start < b.start) ms := by
      refine List.Pairwise.imp_of_mem ?_ hpw
      intro a b ha _ hab
      have := (hbound a ha).1
      omega
    rw [insertionSort_desc_of_ascending ms hstarts]
    exact redactApply_eq_go opts ms text hpw hbound

/-- C1: evaluating the worker at the failing input.  Two records, batch
size 1, `cancel(jobId)` issued while batch 0 is processing: `cancel`
persists `status: cancelled`, but the next batch-boundary abort check throws
`Error('Job cancelled')` and the catch handler persists `status: failed`
with `errorMessage: 'Job cancelled'`, overwriting the cancelled terminal
status; only batch 0's single record was processed (no later batch
begins). -/
theorem C1_cancelled_overwritten_by_failed :
    (runJobUpdates [[("a", RValue.n 1)], [("a", RValue.n 2)]]
          { batchSize := some 1 } (fun _ => false) id (some 0)).filterMap
        (fun u => u.status)
      = [JobStatus.processing, JobStatus.cancelled, JobStatus.failed] ∧
      (runJobRow [[("a", RValue.n 1)], [("a", RValue.n 2)]]
          { batchSize := some 1 } (fun _ => false) id {} (some 0)).status
        = JobStatus.failed ∧
      (runJobRow [[("a", RValue.n 1)], [("a", RValue.n 2)]]
          { batchSize := some 1 } (fun _ => false) id {} (some 0)).errorMessage
        = some "Job cancelled" ∧
      (runJobOutcome [[("a", RValue.n 1)], [("a", RValue.n 2)]]
          { batchSize := some 1 } (fun _ => false) id
          (some 0)).1.outputRecords.length = 1 := by
  decide

/-- C2: evaluating the `create` controller.  With a `ready` data source the
request succeeds, the inserted row has status `pending`, and no
`enqueue` call is made (`enqueueCalls` stays empty) — the scheduler is never
woken; with a non-`ready` data source the request is rejected before any
insert. -/
theorem C2_create_inserts_but_never_enqueues :
    (createJobModel
          ⟨[⟨1, 5, false⟩], [⟨2, 1, "ready", some 10, false⟩], [], [], 0, []⟩
          5 ⟨some 1, 2, none, "jsonl", none⟩ 7 "export-1").toOption.map
        (fun p => (p.2.status, p.1.enqueueCalls, p.1.jobs.length))
      = some (JobStatus.pending, [], 1) ∧
      (match createJobModel
          ⟨[⟨1, 5, false⟩], [⟨2, 1, "pending", some 10, false⟩], [], [], 0, []⟩
          5 ⟨some 1, 2, none, "jsonl", none⟩ 7 "export-1" with
        | .error e => some e
        | .ok _ => none)
        = some (.badRequest "Data source is not ready for processing") := by
  decide

/-- C4: evaluating the worker at the failing input.  Ten decoded records of
which three fail a `gt` filter: the completed row carries the worker's
columns `totalRecords = 10` and `processedRecords = 7`, while the schema's
`outputRecordCount` and `filteredOutCount` stat columns are never written
(they stay null) — no filtered-out counter exists in the worker. -/
theorem C4_stat_columns_never_written :
    runJobRow ((List.range 10).map (fun i => [("age", RValue.n (i + 1 : Int))]))
        { filterConditions := some [⟨"age", FOp.gt, FValue.n 3⟩] }
        (fun _ => false) id { inputRecordCount := some 10 } none
      = { status := .completed, progress := 100, inputRecordCount := some 10,
          outputRecordCount := none, piiDetectedCount := none,
          filteredOutCount := none, totalRecords := some 10,
          processedRecords := some 7, errorMessage := none,
          startedSet := true, completedSet := true } := by
  decide

/-- C5: evaluating the worker at the failing input.  One record with two
string fields, one of which has a PII match: the in-memory `piiDetections`
counter ends at 1 (once per field with a match), but the completed row's
`piiDetectedCount` column is never written and stays null. -/
theorem C5_pii_counter_not_persisted :
    (runJobOutcome [[("note", RValue.s "ping a@b.c"), ("name", RValue.s "bob")]]
          {} (fun s => s = "ping a@b.c") id none).1.piiDetections = 1 ∧
      runJobRow [[("note", RValue.s "ping a@b.c"), ("name", RValue.s "bob")]]
          {} (fun s => s = "ping a@b.c") id {} none
        = { status := .completed, progress := 100, inputRecordCount := none,
            outputRecordCount := none, piiDetectedCount := none,
            filteredOutCount := none, totalRecords := some 1,
            processedRecords := some 1, errorMessage := none,
            startedSet := true, completedSet := true } := by
  decide

/-- C9 counterexample: the pending-jobs query has no ordering clause, so the
database may return the newer pending job first; with one free slot the
scheduler then claims job 2 (created later) while the older pending job 1
remains unclaimed, refuting strict oldest-first claiming. -/
theorem C9_cex_newer_claimed_before_older :
    List.Perm [QueueJob.mk 2 2 .pending, QueueJob.mk 1 1 .pending]
        (pendingJobsOf [⟨1, 1, .pending⟩, ⟨2, 2, .pending⟩]) ∧
      selectPendingNoOrder [⟨1, 1, .pending⟩, ⟨2, 2, .pending⟩]
          [⟨2, 2, .pending⟩, ⟨1, 1, .pending⟩] 1 = [⟨2, 2, .pending⟩] ∧
      (⟨1, 1, .pending⟩ : QueueJob)
        ∈ pendingJobsOf [⟨1, 1, .pending⟩, ⟨2, 2, .pending⟩] ∧
      (⟨1, 1, .pending⟩ : QueueJob).createdAt
        < (⟨2, 2, .pending⟩ : QueueJob).createdAt ∧
      (⟨1, 1, .pending⟩ : QueueJob)
        ∉ selectPendingNoOrder [⟨1, 1, .pending⟩, ⟨2, 2, .pending⟩]
            [⟨2, 2, .pending⟩, ⟨1, 1, .pending⟩] 1 := by
  decide

/-- C9 (amended): the scheduler claims only pending jobs and at most
`availableSlots` of them, but in whatever order the database returns rows —
the query has no ORDER BY, so oldest-first claiming is not guaranteed. -/
theorem C9_claims_pending_within_slots (table perm : List QueueJob) (n : Nat)
    (h : perm.Perm (pendingJobsOf table)) :
    (∀ j ∈ selectPendingNoOrder table perm n, j.status = JobStatus.pending) ∧
      (selectPendingNoOrder table perm n).length ≤ n := by
  constructor
  · intro j hj
    have hmem : j ∈ pendingJobsOf table :=
      h.subset (List.take_subset _ _ hj)
    have hf := List.mem_filter.mp hmem
    simp at hf
    exact hf.2
  · exact List.length_take_le n perm

/-- C9 witness: the amended claim at the concrete two-job table. -/
theorem C9_claims_pending_within_slots_witness :
    (∀ j ∈ selectPendingNoOrder [⟨1, 1, .pending⟩, ⟨2, 2, .pending⟩]
        [⟨2, 2, .pending⟩, ⟨1, 1, .pending⟩] 1, j.status = JobStatus.pending) ∧
      (selectPendingNoOrder [⟨1, 1, .pending⟩, ⟨2, 2, .pending⟩]
          [⟨2, 2, .pending⟩, ⟨1, 1, .pending⟩] 1).length ≤ 1 :=
  C9_claims_pending_within_slots
    [⟨1, 1, .pending⟩, ⟨2, 2, .pending⟩]
    [⟨2, 2, .pending⟩, ⟨1, 1, .pending⟩] 1 (by decide)

theorem effBatchSize_pos (c : PQConfig) : 0 < effBatchSize c := by
  unfold effBatchSize
  cases c.batchSize with
  | none => decide
  | some b =>
    by_cases hb : b = 0
    · simp [hb]
    · simp [hb]
      omega

theorem jsRound_mono {q r : Rat} (h : q ≤ r) : jsRound q ≤ jsRound r := by
  unfold jsRound
  exact Int.floor_mono (by linarith)

theorem progressFormula_mono (total : Nat) {a b : Nat} (h : a ≤ b) :
    progressFormula total a ≤ progressFormula total b := by
  unfold progressFormula
  apply jsRound_mono
  apply mul_le_mul_of_nonneg_right _ (by norm_num : (0 : Rat) ≤ 100)
  rcases Nat.eq_zero_or_pos total with h0 | hpos
  · subst h0
    simp
  · rw [div_le_div_iff_of_pos_right (by exact_mod_cast hpos)]
    exact_mod_cast h

theorem progressFormula_le_100 {total p : Nat} (h : p ≤ total) :
    progressFormula total p ≤ 100 := by
  unfold progressFormula jsRound
  have hq : (p : Rat) / (total : Rat) * 100 + 1 / 2 < ((101 : Int) : Rat) := by
    rcases Nat.eq_zero_or_pos total with h0 | hpos
    · subst h0
      norm_num
    · have h1 : (p : Rat) / (total : Rat) ≤ 1 := by
        rw [div_le_one (by exact_mod_cast hpos)]
        exact_mod_cast h
      have h2 : (p : Rat) / (total : Rat) * 100 ≤ 100 :=
        le_trans (mul_le_mul_of_nonneg_right h1 (by norm_num)) (by norm_num)
      push_cast
      linarith
  have := Int.floor_lt.mpr hq
  omega

theorem progressFormula_zero (total : Nat) : progressFormula total 0 = 0 := by
  unfold progressFormula jsRound
  rw [Nat.cast_zero, zero_div, zero_mul, zero_add, Int.floor_eq_zero_iff]
  constructor <;> norm_num

theorem specCounts_le_total (B total : Nat) :
    ∀ fuel done : Nat, ∀ p ∈ specCounts B total fuel done, p ≤ total := by
  intro fuel
  induction fuel with
  | zero =>
    intro done p hp
    simp [specCounts] at hp
  | succ fuel ih =>
    intro done p hp
    simp only [specCounts] at hp
    by_cases h : total ≤ done
    · rw [if_pos h] at hp
      simp at hp
    · rw [if_neg h] at hp
      rcases List.mem_cons.mp hp with rfl | hp'
      · omega
      · exact ih _ p hp'

theorem specCounts_chain (B total : Nat) :
    ∀ fuel done : Nat,
      List.Chain' (· ≤ ·) (done :: specCounts B total fuel done) := by
  intro fuel
  induction fuel with
  | zero =>
    intro done
    simp [specCounts]
  | succ fuel ih =>
    intro done
    simp only [specCounts]
    by_cases h : total ≤ done
    · rw [if_pos h]
      simp
    · rw [if_neg h]
      rw [List.chain'_cons]
      exact ⟨by omega, ih _⟩

theorem batchLoop_none_spec (cfg : PQConfig) (hasPII : String → Bool)
    (redactFn : String → String) (total : Nat) :
    ∀ (fuel : Nat) (rem : List JsRecord) (done batchIdx piiAcc : Nat)
      (outAcc : List JsRecord),
      rem.length ≤ fuel → done + rem.length = total →
      (batchLoop cfg hasPII redactFn none total fuel rem done batchIdx piiAcc
          outAcc).updates.filterMap (fun u => u.progress)
        = (specCounts (effBatchSize cfg) total fuel done).map
            (progressFormula total) ∧
      (batchLoop cfg hasPII redactFn none total fuel rem done batchIdx piiAcc
          outAcc).aborted = false := by
  intro fuel
  induction fuel with
  | zero =>
    intro rem done batchIdx piiAcc outAcc hlen _
    have hnil : rem = [] := List.eq_nil_of_length_eq_zero (Nat.le_zero.mp hlen)
    subst hnil
    exact ⟨rfl, rfl⟩
  | succ fuel ih =>
    intro rem done batchIdx piiAcc outAcc hlen htot
    cases rem with
    | nil =>
      refine ⟨?_, rfl⟩
      simp only [specCounts]
      rw [if_pos (by simp at htot; omega)]
      rfl
    | cons r rest =>
      have hB := effBatchSize_pos cfg
      have hlen' : (rest.length + 1) - effBatchSize cfg ≤ fuel := by
        simp at hlen
        omega
      have hdone' : done + (List.take (effBatchSize cfg) (r :: rest)).length
          = min (done + effBatchSize cfg) total := by
        simp only [List.length_take, List.length_cons]
        simp at htot
        omega
      have ih' := ih ((r :: rest).drop (effBatchSize cfg))
        (done + (List.take (effBatchSize cfg) (r :: rest)).length)
        (batchIdx + 1)
        (piiAcc + (((r :: rest).take (effBatchSize cfg)).map
          (transformRecord cfg hasPII redactFn)).foldl (fun a p => a + p.2) 0)
        (outAcc ++ (((r :: rest).take (effBatchSize cfg)).map
          (transformRecord cfg hasPII redactFn)).filterMap Prod.fst)
        (by simp [List.length_drop]; omega)
        (by simp only [List.length_drop, List.length_take, List.length_cons]
            simp at htot ⊢
            omega)
      have hob : ¬ (abortObserved none batchIdx = true) := by
        simp [abortObserved]
      simp only [batchLoop]
      rw [if_neg hob]
      simp only [cancelWrite, List.nil_append, List.singleton_append]
      constructor
      · simp only [List.filterMap_cons]
        rw [ih'.1, hdone']
        simp only [specCounts]
        rw [if_neg (by simp at htot; omega)]
        simp only [List.map_cons]
      · exact ih'.2

/-- C10: for every job run that completes normally, the persisted progress
trace is exactly 0 (the `status: processing` write), then
`Math.round(processed/total*100)` after each batch, then 100 (the completion
write); the trace is non-decreasing and the completed row holds
`progress = 100`. -/
theorem C10_progress_monotone_and_complete (records : List JsRecord)
    (cfg : PQConfig) (hasPII : String → Bool) (redactFn : String → String)
    (initRow : JobRow) :
    (runJobUpdates records cfg hasPII redactFn none).filterMap
        (fun u => u.progress)
      = 0 :: (specCounts (effBatchSize cfg) records.length records.length
            0).map (progressFormula records.length) ++ [100] ∧
      List.Chain' (· ≤ ·)
        ((runJobUpdates records cfg hasPII redactFn none).filterMap
          (fun u => u.progress)) ∧
      (runJobRow records cfg hasPII redactFn initRow none).status
        = JobStatus.completed ∧
      (runJobRow records cfg hasPII redactFn initRow none).progress = 100 := by
  have hloop := batchLoop_none_spec cfg hasPII redactFn records.length
    records.length records 0 0 0 [] le_rfl (by simp)
  have hfilter : (runJobUpdates records cfg hasPII redactFn none).filterMap
      (fun u => u.progress)
      = 0 :: (specCounts (effBatchSize cfg) records.length records.length
          0).map (progressFormula records.length) ++ [100] := by
    unfold runJobUpdates runJobOutcome
    simp [hloop.2, List.filterMap_append, hloop.1]
  have hchainfull : List.Chain' (· ≤ ·)
      ((0 : Int) :: (specCounts (effBatchSize cfg) records.length
          records.length 0).map (progressFormula records.length) ++ [100]) := by
    have hmap : (0 : Int) :: (specCounts (effBatchSize cfg) records.length
        records.length 0).map (progressFormula records.length)
        = ((0 : Nat) :: specCounts (effBatchSize cfg) records.length
            records.length 0).map (progressFormula records.length) := by
      rw [List.map_cons, progressFormula_zero]
    rw [List.cons_append, ← List.cons_append, hmap, List.chain'_append]
    refine ⟨?_, List.chain'_singleton _, ?_⟩
    · rw [List.chain'_map]
      exact (specCounts_chain (effBatchSize cfg) records.length
        records.length 0).imp (fun a b hab => progressFormula_mono _ hab)
    · intro x hx y hy
      simp at hy
      subst hy
      obtain ⟨hne, rfl⟩ := List.mem_getLast?_eq_getLast hx
      have hxmem := List.getLast_mem hne
      obtain ⟨p, hp, hpe⟩ := List.mem_map.mp hxmem
      have hple : p ≤ records.length := by
        rcases List.mem_cons.mp hp with rfl | hp'
        · omega
        · exact specCounts_le_total _ _ _ _ p hp'
      rw [← hpe]
      exact progressFormula_le_100 hple
  have hrow : (runJobRow records cfg hasPII redactFn initRow none).status
      = JobStatus.completed ∧
      (runJobRow records cfg hasPII redactFn initRow none).progress = 100 := by
    unfold runJobRow runJobUpdates runJobOutcome
    simp [hloop.2, List.foldl_append, applyUpdate]
  exact ⟨hfilter, hfilter ▸ hchainfull, hrow.1, hrow.2⟩

/-- C7 witness: one email match inside a concrete text with default
options. -/
theorem C7_redaction_witness :
    redactPIIModel "hi jane@ex.co west".data
        ⟨['*'], false, none⟩ [⟨.email, "jane@ex.co".data, 3, 13, 95 / 100⟩]
      = specRedact "hi jane@ex.co west".data
        ⟨['*'], false, none⟩ [⟨.email, "jane@ex.co".data, 3, 13, 95 / 100⟩] :=
  C7_redaction _ _ _ (by simp) (by decide)

theorem skipWs_not {c : Char} (l : List Char) (h : isWsChar c = false) :
    skipWs (c :: l) = c :: l := by
  simp [skipWs, h]

theorem skipWs_ws_append :
    ∀ ws l : List Char, (∀ c ∈ ws, isWsChar c = true) →
      skipWs (ws ++ l) = skipWs l := by
  intro ws
  induction ws with
  | nil => intro l _; rfl
  | cons c rest ih =>
    intro l h
    simp only [List.cons_append, skipWs, h c (by simp)]
    exact ih l (fun x hx => h x (by simp [hx]))

theorem digitChar_mem (n : Nat) : digitChar n ∈ "0123456789".data := by
  unfold digitChar
  split_ifs <;> decide

theorem digitChar_toNat {n : Nat} (h : n < 10) : (digitChar n).toNat - 48 = n := by
  interval_cases n <;> decide

theorem natToChars_ne_nil (n : Nat) : natToChars n ≠ [] := by
  rw [natToChars]
  split
  · simp
  · simp

theorem natToChars_all_digits (n : Nat) :
    ∀ c ∈ natToChars n, c ∈ "0123456789".data := by
  induction n using Nat.strong_induction_on with
  | _ n ih =>
    rw [natToChars]
    split
    · intro c hc
      simp at hc
      subst hc
      exact digitChar_mem n
    · intro c hc
      rcases List.mem_append.mp hc with h | h
      · exact ih (n / 10) (Nat.div_lt_self (by omega) (by omega)) c h
      · simp at h
        subst h
        exact digitChar_mem _

theorem digit_isDigitChar : ∀ c ∈ "0123456789".data, isDigitChar c = true := by
  decide

theorem takeDigits_append :
    ∀ (ds rest : List Char), (∀ c ∈ ds, isDigitChar c = true) →
      (∀ c, rest.head? = some c → isDigitChar c = false) →
      takeDigits (ds ++ rest) = (ds.map (fun c => c.toNat - 48), rest) := by
  intro ds
  induction ds with
  | nil =>
    intro rest _ hrest
    cases rest with
    | nil => rfl
    | cons c r =>
      simp only [List.nil_append, takeDigits, hrest c rfl]
      simp
  | cons c ds ih =>
    intro rest h hrest
    simp only [List.cons_append, takeDigits, h c (by simp), if_true,
      List.append_eq]
    rw [ih rest (fun x hx => h x (by simp [hx])) hrest]
    simp

theorem digitsVal_append_singleton (ds : List Nat) (d : Nat) :
    digitsVal (ds ++ [d]) = digitsVal ds * 10 + d := by
  unfold digitsVal
  rw [List.foldl_append]
  rfl

theorem digitsVal_natToChars (n : Nat) :
    digitsVal ((natToChars n).map (fun c => c.toNat - 48)) = n := by
  induction n using Nat.strong_induction_on with
  | _ n ih =>
    rw [natToChars]
    split
    · next h =>
      simp only [List.map_cons, List.map_nil]
      unfold digitsVal
      simp [digitChar_toNat h]
    · next h =>
      rw [List.map_append, List.map_singleton, digitsVal_append_singleton,
        ih (n / 10) (Nat.div_lt_self (by omega) (by omega)),
        digitChar_toNat (by omega)]
      omega

theorem numTermOk_head_not_digit {rest : List Char} (h : numTermOk rest = true) :
    ∀ c, rest.head? = some c → isDigitChar c = false := by
  intro c hc
  cases rest with
  | nil => simp at hc
  | cons c' r =>
    simp at hc
    subst hc
    simp only [numTermOk, Bool.not_eq_true'] at h
    simp only [Bool.or_eq_false_iff] at h
    exact h.1.1.1

theorem parseNatNum_round (n : Nat) (rest : List Char)
    (h : numTermOk rest = true) :
    parseNatNum (natToChars n ++ rest) = some (n, rest) := by
  unfold parseNatNum
  rw [takeDigits_append (natToChars n) rest
    (fun c hc => digit_isDigitChar c (natToChars_all_digits n c hc))
    (numTermOk_head_not_digit h)]
  simp only []
  rw [if_neg (by simp [natToChars_ne_nil n]), if_pos h, digitsVal_natToChars]

theorem intToChars_ne_nil (z : Int) : intToChars z ≠ [] := by
  unfold intToChars
  split
  · simp
  · exact natToChars_ne_nil _

theorem intToChars_head_cases {z : Int} {c : Char} {cs : List Char}
    (h : intToChars z = c :: cs) : c = '-' ∨ c ∈ "0123456789".data := by
  unfold intToChars at h
  split at h
  · exact Or.inl (List.cons.injEq .. ▸ h).1.symm
  · exact Or.inr (natToChars_all_digits _ c (h ▸ List.mem_cons_self c cs))

theorem parseNum_round (z : Int) (rest : List Char)
    (h : numTermOk rest = true) :
    parseNum (intToChars z ++ rest) = some (z, rest) := by
  by_cases hz : z < 0
  · have : intToChars z = '-' :: natToChars z.natAbs := by
      unfold intToChars
      rw [if_pos hz]
    rw [this]
    simp only [List.cons_append, parseNum, if_pos rfl]
    rw [parseNatNum_round _ _ h]
    simp only [Option.map_some']
    have hval : -((z.natAbs : Nat) : Int) = z := by omega
    rw [hval]
    simp
  · have hval : intToChars z = natToChars z.natAbs := by
      unfold intToChars
      rw [if_neg hz]
    cases hnc : natToChars z.natAbs with
    | nil => exact absurd hnc (natToChars_ne_nil _)
    | cons c cs =>
      have hcd : c ∈ "0123456789".data :=
        natToChars_all_digits _ c (hnc ▸ List.mem_cons_self c cs)
      have hcne : ¬ (c = '-') :=
        (show ∀ x ∈ "0123456789".data, ¬ (x = '-') by decide) c hcd
      rw [hval, hnc]
      simp only [List.cons_append, parseNum, if_neg hcne]
      rw [show (c :: (cs ++ rest)) = (c :: cs) ++ rest from rfl, ← hnc,
        parseNatNum_round _ _ h]
      simp only [Option.map_some']
      have hval2 : ((z.natAbs : Nat) : Int) = z := by omega
      rw [hval2]

theorem parseHex_hexDigitChar {n : Nat} (h : n < 16) :
    parseHex (hexDigitChar n) = some n := by
  interval_cases n <;> decide

theorem charOfNat_toNat (c : Char) (h : c.toNat < 32) :
    Char.ofNat c.toNat = c := by
  have hv : c.toNat.isValidChar := Or.inl (by unfold Char.toNat at *; omega)
  unfold Char.ofNat
  rw [dif_pos hv]
  unfold Char.ofNatAux
  apply Char.eq_of_val_eq
  apply UInt32.eq_of_toBitVec_eq
  apply BitVec.eq_of_toNat_eq
  rw [BitVec.toNat_ofNatLt]
  rfl

theorem parseStrBody_quote (r : List Char) :
    parseStrBody ('\x22' :: r) = some ([], r) := by
  rw [parseStrBody.eq_def]
  rfl

theorem parseStrBody_lit {c : Char} (h1 : ¬ (c = '\x22')) (h2 : ¬ (c = '\x5c'))
    (r : List Char) :
    parseStrBody (c :: r) = (parseStrBody r).map (fun p => (c :: p.1, p.2)) := by
  rw [parseStrBody.eq_def]
  dsimp only
  rw [if_neg h1, if_neg h2]

theorem parseStrBody_esc_q (r : List Char) :
    parseStrBody ('\x5c' :: '\x22' :: r)
      = (parseStrBody r).map (fun p => ('\x22' :: p.1, p.2)) := by
  rw [parseStrBody.eq_def]
  rfl

theorem parseStrBody_esc_bs (r : List Char) :
    parseStrBody ('\x5c' :: '\x5c' :: r)
      = (parseStrBody r).map (fun p => ('\x5c' :: p.1, p.2)) := by
  rw [parseStrBody.eq_def]
  rfl

theorem parseStrBody_esc_b (r : List Char) :
    parseStrBody ('\x5c' :: 'b' :: r)
      = (parseStrBody r).map (fun p => ('\x08' :: p.1, p.2)) := by
  rw [parseStrBody.eq_def]
  rfl

theorem parseStrBody_esc_f (r : List Char) :
    parseStrBody ('\x5c' :: 'f' :: r)
      = (parseStrBody r).map (fun p => ('\x0c' :: p.1, p.2)) := by
  rw [parseStrBody.eq_def]
  rfl

theorem parseStrBody_esc_n (r : List Char) :
    parseStrBody ('\x5c' :: 'n' :: r)
      = (parseStrBody r).map (fun p => ('\n' :: p.1, p.2)) := by
  rw [parseStrBody.eq_def]
  rfl

theorem parseStrBody_esc_r (r : List Char) :
    parseStrBody ('\x5c' :: 'r' :: r)
      = (parseStrBody r).map (fun p => ('\x0d' :: p.1, p.2)) := by
  rw [parseStrBody.eq_def]
  rfl

theorem parseStrBody_esc_t (r : List Char) :
    parseStrBody ('\x5c' :: 't' :: r)
      = (parseStrBody r).map (fun p => ('\t' :: p.1, p.2)) := by
  rw [parseStrBody.eq_def]
  rfl

theorem parseStrBody_esc_u {a b c d : Char} {va vb vc vd : Nat}
    (ha : parseHex a = some va) (hb : parseHex b = some vb)
    (hc : parseHex c = some vc) (hd : parseHex d = some vd) (r : List Char) :
    parseStrBody ('\x5c' :: 'u' :: a :: b :: c :: d :: r)
      = (parseStrBody r).map (fun p =>
          (Char.ofNat (((va * 16 + vb) * 16 + vc) * 16 + vd) :: p.1, p.2)) := by
  rw [parseStrBody.eq_def]
  simp only [ha, hb, hc, hd]
  rfl

theorem parseStrBody_round :
    ∀ s rest : List Char,
      parseStrBody ((s.map escapeChar).flatten ++ '\x22' :: rest)
        = some (s, rest) := by
  intro s
  induction s with
  | nil =>
    intro rest
    simp only [List.map_nil, List.flatten_nil, List.nil_append]
    exact parseStrBody_quote rest
  | cons c s ih =>
    intro rest
    simp only [List.map_cons, List.flatten_cons, List.append_assoc]
    by_cases h1 : c = '\x22'
    · subst h1
      rw [show escapeChar '\x22' = ['\x5c', '\x22'] from rfl]
      simp only [List.cons_append, List.nil_append, parseStrBody_esc_q, ih]
      rfl
    by_cases h2 : c = '\x5c'
    · subst h2
      rw [show escapeChar '\x5c' = ['\x5c', '\x5c'] from rfl]
      simp only [List.cons_append, List.nil_append, parseStrBody_esc_bs, ih]
      rfl
    by_cases h3 : c = '\x08'
    · subst h3
      rw [show escapeChar '\x08' = ['\x5c', 'b'] from rfl]
      simp only [List.cons_append, List.nil_append, parseStrBody_esc_b, ih]
      rfl
    by_cases h4 : c = '\x0c'
    · subst h4
      rw [show escapeChar '\x0c' = ['\x5c', 'f'] from rfl]
      simp only [List.cons_append, List.nil_append, parseStrBody_esc_f, ih]
      rfl
    by_cases h5 : c = '\n'
    · subst h5
      rw [show escapeChar '\n' = ['\x5c', 'n'] from rfl]
      simp only [List.cons_append, List.nil_append, parseStrBody_esc_n, ih]
      rfl
    by_cases h6 : c = '\x0d'
    · subst h6
      rw [show escapeChar '\x0d' = ['\x5c', 'r'] from rfl]
      simp only [List.cons_append, List.nil_append, parseStrBody_esc_r, ih]
      rfl
    by_cases h7 : c = '\t'
    · subst h7
      rw [show escapeChar '\t' = ['\x5c', 't'] from rfl]
      simp only [List.cons_append, List.nil_append, parseStrBody_esc_t, ih]
      rfl
    by_cases h8 : c.toNat < 32
    · have he : escapeChar c
          = ['\x5c', 'u', '0', '0', hexDigitChar (c.toNat / 16),
             hexDigitChar (c.toNat % 16)] := by
        unfold escapeChar
        rw [if_neg h1, if_neg h2, if_neg h3, if_neg h4, if_neg h5, if_neg h6,
          if_neg h7, if_pos h8]
      rw [he]
      have e0 : parseHex '0' = some 0 := by decide
      have e1 : parseHex (hexDigitChar (c.toNat / 16)) = some (c.toNat / 16) :=
        parseHex_hexDigitChar (by omega)
      have e2 : parseHex (hexDigitChar (c.toNat % 16)) = some (c.toNat % 16) :=
        parseHex_hexDigitChar (by omega)
      simp only [List.cons_append, List.nil_append,
        parseStrBody_esc_u e0 e0 e1 e2, ih]
      have hval : ((0 * 16 + 0) * 16 + c.toNat / 16) * 16 + c.toNat % 16
          = c.toNat := by omega
      rw [hval, charOfNat_toNat c h8]
      rfl
    · have he : escapeChar c = [c] := by
        unfold escapeChar
        rw [if_neg h1, if_neg h2, if_neg h3, if_neg h4, if_neg h5, if_neg h6,
          if_neg h7, if_neg h8]
      rw [he]
      simp only [List.cons_append, List.nil_append, parseStrBody_lit h1 h2, ih]
      rfl

theorem encodeStrLit_append (s X : List Char) :
    encodeStrLit s ++ X
      = '\x22' :: ((s.map escapeChar).flatten ++ '\x22' :: X) := by
  simp [encodeStrLit]

theorem encodeScalar_ne_nil (v : JScalar) : encodeScalar v ≠ [] := by
  cases v with
  | s str => simp [encodeScalar, encodeStrLit]
  | i z =>
    show intToChars z ≠ []
    exact intToChars_ne_nil z
  | b bv => cases bv <;> simp [encodeScalar]
  | jnull => simp [encodeScalar]

theorem encodeScalar_head_not_ws {v : JScalar} {c : Char} {cs : List Char}
    (h : encodeScalar v = c :: cs) : isWsChar c = false := by
  cases v with
  | s str =>
    simp only [encodeScalar, encodeStrLit] at h
    injection h with h1 _
    rw [← h1]
    decide
  | i z =>
    rcases intToChars_head_cases (z := z) h with rfl | hd
    · decide
    · exact (show ∀ x ∈ "0123456789".data, isWsChar x = false by decide) c hd
  | b bv =>
    cases bv <;> simp only [encodeScalar] at h <;> injection h with h1 _ <;>
      rw [← h1] <;> decide
  | jnull =>
    simp only [encodeScalar] at h
    injection h with h1 _
    rw [← h1]
    decide

theorem parseScalar_round (v : JScalar) (rest : List Char)
    (h : numTermOk rest = true) :
    parseScalar (encodeScalar v ++ rest) = some (v, rest) := by
  cases v with
  | s str =>
    show parseScalar (encodeStrLit str ++ rest) = _
    rw [encodeStrLit_append]
    simp [parseScalar, parseStrBody_round]
  | i z =>
    cases hnc : intToChars z with
    | nil => exact absurd hnc (intToChars_ne_nil z)
    | cons c cs =>
      have hne : ¬ (c = '\x22') ∧ ¬ (c = 't') ∧ ¬ (c = 'f') ∧ ¬ (c = 'n') := by
        rcases intToChars_head_cases hnc with rfl | hd
        · exact ⟨by decide, by decide, by decide, by decide⟩
        · exact ⟨(show ∀ x ∈ "0123456789".data, ¬ (x = '\x22') by decide) c hd,
            (show ∀ x ∈ "0123456789".data, ¬ (x = 't') by decide) c hd,
            (show ∀ x ∈ "0123456789".data, ¬ (x = 'f') by decide) c hd,
            (show ∀ x ∈ "0123456789".data, ¬ (x = 'n') by decide) c hd⟩
      show parseScalar (intToChars z ++ rest) = _
      rw [hnc]
      simp only [List.cons_append, parseScalar, if_neg hne.1, if_neg hne.2.1,
        if_neg hne.2.2.1, if_neg hne.2.2.2]
      rw [show c :: (cs ++ rest) = (c :: cs) ++ rest from rfl, ← hnc,
        parseNum_round z rest h]
      rfl
  | b bv => cases bv <;> simp [encodeScalar, parseScalar]
  | jnull => simp [encodeScalar, parseScalar]

theorem skipWs_scalar (v : JScalar) (T : List Char) :
    skipWs (encodeScalar v ++ T) = encodeScalar v ++ T := by
  cases hv : encodeScalar v with
  | nil => exact absurd hv (encodeScalar_ne_nil v)
  | cons c cs =>
    rw [List.cons_append]
    exact skipWs_not _ (encodeScalar_head_not_ws hv)

theorem parseMembers_succ (f : Nat) (l : List Char) :
    parseMembers (f + 1) l = parseMembersF (parseMembers f) l := by
  rw [parseMembers.eq_def]

theorem parseMembersF_step
    (next : List Char → Option (JRecord × List Char)) (k : List Char)
    (v : JScalar) (pre w1 T : List Char)
    (hpre : ∀ c ∈ pre, isWsChar c = true)
    (hw1 : ∀ c ∈ w1, isWsChar c = true)
    (hT : numTermOk T = true) :
    parseMembersF next
        (pre ++ ('\x22' :: ((k.map escapeChar).flatten
          ++ '\x22' :: ':' :: (w1 ++ (encodeScalar v ++ T)))))
      = (match skipWs T with
        | [] => none
        | c3 :: r5 =>
          if c3 = ',' then (next r5).map (fun p => ((k, v) :: p.1, p.2))
          else if c3 = '\x7d' then some ([(k, v)], r5)
          else none) := by
  unfold parseMembersF
  rw [skipWs_ws_append pre _ hpre,
    skipWs_not _ (show isWsChar '\x22' = false from rfl)]
  dsimp only
  rw [if_pos rfl,
    show ((k.map escapeChar).flatten
      ++ '\x22' :: ':' :: (w1 ++ (encodeScalar v ++ T)))
      = ((k.map escapeChar).flatten
      ++ '\x22' :: (':' :: (w1 ++ (encodeScalar v ++ T)))) from rfl,
    parseStrBody_round]
  dsimp only
  rw [skipWs_not _ (show isWsChar ':' = false from rfl)]
  dsimp only
  rw [if_pos rfl, skipWs_ws_append w1 _ hw1, skipWs_scalar,
    parseScalar_round v T hT]

theorem parseMembers_roundC :
    ∀ (entries : JRecord) (fuel : Nat) (rest : List Char),
      entries ≠ [] → entries.length ≤ fuel →
      parseMembers fuel
          (joinSep [','] (entries.map encodeMemberC) ++ '\x7d' :: rest)
        = some (entries, rest) := by
  intro entries
  induction entries with
  | nil => intro fuel rest hne _; exact absurd rfl hne
  | cons kv tailE ih =>
    obtain ⟨k, v⟩ := kv
    intro fuel rest _ hlen
    cases fuel with
    | zero => simp at hlen
    | succ f =>
      rw [parseMembers_succ]
      cases tailE with
      | nil =>
        have hshape : joinSep [','] ([((k, v) : (List Char) × JScalar)].map
              encodeMemberC) ++ '\x7d' :: rest
            = [] ++ ('\x22' :: ((k.map escapeChar).flatten
                ++ '\x22' :: ':' :: ([] ++ (encodeScalar v
                  ++ '\x7d' :: rest)))) := by
          simp [joinSep, encodeMemberC, encodeStrLit]
        rw [hshape, parseMembersF_step (parseMembers f) k v [] []
          ('\x7d' :: rest) (by simp) (by simp) rfl]
        rw [skipWs_not _ (show isWsChar '\x7d' = false from rfl)]
        dsimp only
        rw [if_neg (by decide), if_pos rfl]
      | cons kv2 t2 =>
        have hshape : joinSep [','] (((k, v) :: kv2 :: t2).map encodeMemberC)
              ++ '\x7d' :: rest
            = [] ++ ('\x22' :: ((k.map escapeChar).flatten
                ++ '\x22' :: ':' :: ([] ++ (encodeScalar v
                  ++ (',' :: (joinSep [','] ((kv2 :: t2).map encodeMemberC)
                    ++ '\x7d' :: rest)))))) := by
          simp [joinSep, encodeMemberC, encodeStrLit]
        rw [hshape, parseMembersF_step (parseMembers f) k v [] []
          (',' :: (joinSep [','] ((kv2 :: t2).map encodeMemberC)
            ++ '\x7d' :: rest)) (by simp) (by simp) rfl]
        rw [skipWs_not _ (show isWsChar ',' = false from rfl)]
        dsimp only
        rw [if_pos rfl, ih f rest (by simp) (by simp at hlen ⊢; omega)]
        rfl

theorem memberC_text_head (kv : (List Char) × JScalar)
    (xs : List ((List Char) × JScalar)) (W : List Char) :
    ∃ TAIL, joinSep [','] ((kv :: xs).map encodeMemberC) ++ W
      = '\x22' :: TAIL := by
  obtain ⟨k, v⟩ := kv
  cases xs with
  | nil =>
    exact ⟨(k.map escapeChar).flatten ++ '\x22' :: ':' :: (encodeScalar v ++ W),
      by simp [joinSep, encodeMemberC, encodeStrLit]⟩
  | cons y ys =>
    exact ⟨(k.map escapeChar).flatten ++ '\x22' :: ':' :: (encodeScalar v
        ++ ',' :: (joinSep [','] ((y :: ys).map encodeMemberC) ++ W)),
      by simp [joinSep, encodeMemberC, encodeStrLit]⟩

theorem parseRecord_roundC (fuel : Nat) (r : JRecord) (rest : List Char)
    (h : r.length ≤ fuel) :
    parseRecord fuel (encodeRecordC r ++ rest) = some (r, rest) := by
  cases r with
  | nil =>
    show parseRecord fuel ('\x7b' :: '\x7d' :: rest) = some ([], rest)
    unfold parseRecord
    rw [skipWs_not _ (show isWsChar '\x7b' = false from rfl)]
    dsimp only
    rw [if_pos rfl, skipWs_not _ (show isWsChar '\x7d' = false from rfl)]
    dsimp only
    rw [if_pos rfl]
  | cons kv tailE =>
    have hshape : encodeRecordC (kv :: tailE) ++ rest
        = '\x7b' :: (joinSep [','] ((kv :: tailE).map encodeMemberC)
            ++ '\x7d' :: rest) := by
      simp [encodeRecordC]
    rw [hshape]
    unfold parseRecord
    rw [skipWs_not _ (show isWsChar '\x7b' = false from rfl)]
    dsimp only
    rw [if_pos rfl]
    obtain ⟨TAIL, hT⟩ := memberC_text_head kv tailE ('\x7d' :: rest)
    rw [hT, skipWs_not _ (show isWsChar '\x22' = false from rfl)]
    dsimp only
    rw [if_neg (by decide)]
    have hmem := parseMembers_roundC (kv :: tailE) fuel rest (by simp) h
    rw [hT] at hmem
    exact hmem

theorem hexDigitChar_mem (n : Nat) : hexDigitChar n ∈ "0123456789abcdef".data := by
  unfold hexDigitChar
  by_cases h : n < 10
  · rw [if_pos h]
    exact (show ∀ y ∈ "0123456789".data, y ∈ "0123456789abcdef".data by decide) _
      (digitChar_mem n)
  · rw [if_neg h]
    split_ifs <;> decide

theorem escapeChar_no_nl (c : Char) : ∀ x ∈ escapeChar c, x ≠ '\n' := by
  unfold escapeChar
  split_ifs with h1 h2 h3 h4 h5 h6 h7 h8 <;> intro x hx
  · exact (show ∀ y ∈ ['\x5c', '\x22'], y ≠ '\n' by decide) x hx
  · exact (show ∀ y ∈ ['\x5c', '\x5c'], y ≠ '\n' by decide) x hx
  · exact (show ∀ y ∈ ['\x5c', 'b'], y ≠ '\n' by decide) x hx
  · exact (show ∀ y ∈ ['\x5c', 'f'], y ≠ '\n' by decide) x hx
  · exact (show ∀ y ∈ ['\x5c', 'n'], y ≠ '\n' by decide) x hx
  · exact (show ∀ y ∈ ['\x5c', 'r'], y ≠ '\n' by decide) x hx
  · exact (show ∀ y ∈ ['\x5c', 't'], y ≠ '\n' by decide) x hx
  · rcases List.mem_cons.mp hx with rfl | hx
    · decide
    rcases List.mem_cons.mp hx with rfl | hx
    · decide
    rcases List.mem_cons.mp hx with rfl | hx
    · decide
    rcases List.mem_cons.mp hx with rfl | hx
    · decide
    rcases List.mem_cons.mp hx with rfl | hx
    · exact (show ∀ y ∈ "0123456789abcdef".data, y ≠ '\n' by decide) _
        (hexDigitChar_mem _)
    rcases List.mem_cons.mp hx with rfl | hx
    · exact (show ∀ y ∈ "0123456789abcdef".data, y ≠ '\n' by decide) _
        (hexDigitChar_mem _)
    · simp at hx
  · rcases List.mem_cons.mp hx with rfl | hx
    · exact fun heq => h5 heq
    · simp at hx

theorem joinSep_mem {sep : List Char} {x : Char} :
    ∀ {L : List (List Char)}, x ∈ joinSep sep L → x ∈ sep ∨ ∃ l ∈ L, x ∈ l := by
  intro L
  induction L with
  | nil => intro hx; simp [joinSep] at hx
  | cons a t ih =>
    intro hx
    cases t with
    | nil =>
      simp only [joinSep] at hx
      exact Or.inr ⟨a, by simp, hx⟩
    | cons b t2 =>
      simp only [joinSep, List.append_assoc, List.mem_append] at hx
      rcases hx with hx | hx | hx
      · exact Or.inr ⟨a, by simp, hx⟩
      · exact Or.inl hx
      · rcases ih hx with h | ⟨l, hl, hxl⟩
        · exact Or.inl h
        · exact Or.inr ⟨l, List.mem_cons_of_mem _ hl, hxl⟩

theorem encodeStrLit_no_nl (s : List Char) : ∀ x ∈ encodeStrLit s, x ≠ '\n' := by
  intro x hx
  unfold encodeStrLit at hx
  rcases List.mem_cons.mp hx with rfl | hx
  · decide
  rcases List.mem_append.mp hx with hx | hx
  · rw [List.mem_flatten] at hx
    obtain ⟨l, hl, hxl⟩ := hx
    obtain ⟨c, _, rfl⟩ := List.mem_map.mp hl
    exact escapeChar_no_nl c x hxl
  · rcases List.mem_cons.mp hx with rfl | hx
    · decide
    · simp at hx

theorem encodeScalar_no_nl (v : JScalar) : ∀ x ∈ encodeScalar v, x ≠ '\n' := by
  cases v with
  | s str => exact encodeStrLit_no_nl str
  | i z =>
    intro x hx
    simp only [encodeScalar] at hx
    unfold intToChars at hx
    by_cases hz : z < 0
    · rw [if_pos hz] at hx
      rcases List.mem_cons.mp hx with rfl | hx'
      · decide
      · exact (show ∀ y ∈ "0123456789".data, y ≠ '\n' by decide) x
          (natToChars_all_digits _ x hx')
    · rw [if_neg hz] at hx
      exact (show ∀ y ∈ "0123456789".data, y ≠ '\n' by decide) x
        (natToChars_all_digits _ x hx)
  | b bv =>
    cases bv with
    | true => exact fun x hx =>
        (show ∀ y ∈ encodeScalar (JScalar.b true), y ≠ '\n' by decide) x hx
    | false => exact fun x hx =>
        (show ∀ y ∈ encodeScalar (JScalar.b false), y ≠ '\n' by decide) x hx
  | jnull => exact fun x hx =>
      (show ∀ y ∈ encodeScalar JScalar.jnull, y ≠ '\n' by decide) x hx

theorem encodeRecordC_no_nl (r : JRecord) : ∀ x ∈ encodeRecordC r, x ≠ '\n' := by
  intro x hx
  unfold encodeRecordC at hx
  rcases List.mem_cons.mp hx with rfl | hx
  · decide
  rcases List.mem_append.mp hx with hx | hx
  · rcases joinSep_mem hx with h | ⟨l, hl, hxl⟩
    · rcases List.mem_cons.mp h with rfl | h
      · decide
      · simp at h
    · obtain ⟨kv, _, rfl⟩ := List.mem_map.mp hl
      unfold encodeMemberC at hxl
      rcases List.mem_append.mp hxl with h | h
      · exact encodeStrLit_no_nl _ x h
      · rcases List.mem_cons.mp h with rfl | h
        · decide
        · exact encodeScalar_no_nl _ x h
  · rcases List.mem_cons.mp hx with rfl | hx
    · decide
    · simp at hx

theorem splitLines_no_nl :
    ∀ l : List Char, (∀ x ∈ l, x ≠ '\n') → splitLines l = [l] := by
  intro l
  induction l with
  | nil => intro _; rfl
  | cons c r ih =>
    intro h
    have hc : ¬ (c = '\n') := h c (by simp)
    rw [splitLines.eq_def]
    dsimp only
    rw [if_neg hc, ih (fun x hx => h x (by simp [hx]))]

theorem splitLines_append :
    ∀ l : List Char, (∀ x ∈ l, x ≠ '\n') → ∀ rest,
      splitLines (l ++ '\n' :: rest) = l :: splitLines rest := by
  intro l
  induction l with
  | nil =>
    intro _ rest
    rw [List.nil_append, splitLines.eq_def]
    dsimp only
    rw [if_pos rfl]
  | cons c r ih =>
    intro h rest
    have hc : ¬ (c = '\n') := h c (by simp)
    rw [List.cons_append, splitLines.eq_def]
    dsimp only
    rw [if_neg hc, ih (fun x hx => h x (by simp [hx])) rest]

theorem splitLines_joinSep :
    ∀ L : List (List Char), L ≠ [] → (∀ l ∈ L, ∀ x ∈ l, x ≠ '\n') →
      splitLines (joinSep ['\n'] L) = L := by
  intro L
  induction L with
  | nil => intro hne _; exact absurd rfl hne
  | cons a t ih =>
    intro _ h
    cases t with
    | nil =>
      simp only [joinSep]
      exact splitLines_no_nl a (h a (by simp))
    | cons b t2 =>
      have hshape : joinSep ['\n'] (a :: b :: t2)
          = a ++ '\n' :: joinSep ['\n'] (b :: t2) := by
        simp [joinSep]
      rw [hshape, splitLines_append a (h a (by simp)),
        ih (by simp) (fun l hl => h l (List.mem_cons_of_mem _ hl))]

theorem mem_dropWhile_of_not {p : Char → Bool} {c : Char} :
    ∀ l : List Char, c ∈ l → p c = false → c ∈ l.dropWhile p := by
  intro l
  induction l with
  | nil => intro h _; simp at h
  | cons a t ih =>
    intro hc hp
    rw [List.dropWhile_cons]
    by_cases ha : p a = true
    · rw [if_pos ha]
      rcases List.mem_cons.mp hc with rfl | hc'
      · rw [hp] at ha; cases ha
      · exact ih hc' hp
    · rw [if_neg ha]
      exact hc

theorem not_isEmpty_of_mem {l : List Char} {c : Char} (h : c ∈ l) :
    (!l.isEmpty) = true := by
  cases hemp : l.isEmpty with
  | false => rfl
  | true => exact absurd (List.isEmpty_iff.mp hemp) (List.ne_nil_of_mem h)

theorem isTruthyLine_of_mem {l : List Char} {c : Char} (hc : c ∈ l)
    (hw : isWsChar c = false) : isTruthyLine l = true := by
  unfold isTruthyLine
  exact not_isEmpty_of_mem (List.mem_reverse.mpr (mem_dropWhile_of_not _
    (List.mem_reverse.mpr (mem_dropWhile_of_not l hc hw)) hw))

theorem memberC_len_pos (kv : (List Char) × JScalar) :
    1 ≤ (encodeMemberC kv).length := by
  simp [encodeMemberC, encodeStrLit]

theorem joinSep_length_ge (sep : List Char) :
    ∀ L : List (List Char), (∀ x ∈ L, 1 ≤ x.length) →
      L.length ≤ (joinSep sep L).length := by
  intro L
  induction L with
  | nil => intro _; simp [joinSep]
  | cons a t ih =>
    intro h
    cases t with
    | nil =>
      simp only [joinSep, List.length_cons, List.length_nil]
      have := h a (by simp)
      omega
    | cons b t2 =>
      simp only [joinSep, List.length_append, List.length_cons]
      have h1 := h a (by simp)
      have h2 := ih (fun x hx => h x (List.mem_cons_of_mem _ hx))
      simp only [List.length_cons] at h2
      omega

theorem record_length_le_encodeC (r : JRecord) :
    r.length ≤ (encodeRecordC r).length := by
  have h1 : (r.map encodeMemberC).length
      ≤ (joinSep [','] (r.map encodeMemberC)).length :=
    joinSep_length_ge [','] _ (by
      intro x hx
      obtain ⟨kv, _, rfl⟩ := List.mem_map.mp hx
      exact memberC_len_pos kv)
  simp only [encodeRecordC, List.length_cons, List.length_append,
    List.length_map] at h1 ⊢
  omega

theorem mapM_parse_lines :
    ∀ rs : List JRecord,
      (rs.map encodeRecordC).mapM (fun line =>
        match parseRecord (line.length + 1) line with
        | some (r, rest) => if skipWs rest = [] then some r else none
        | none => none) = some rs := by
  intro rs
  induction rs with
  | nil => rfl
  | cons r t ih =>
    have hone : parseRecord ((encodeRecordC r).length + 1) (encodeRecordC r)
        = some (r, []) := by
      have := parseRecord_roundC ((encodeRecordC r).length + 1) r []
        (le_trans (record_length_le_encodeC r) (by omega))
      rwa [List.append_nil] at this
    simp only [List.map_cons, List.mapM_cons, hone, skipWs, if_pos rfl, ih]
    rfl

theorem decode_encode_jsonl (rs : List JRecord) :
    decodeData (encodeData rs CodecFormat.jsonl) CodecFormat.jsonl = some rs := by
  cases rs with
  | nil => rfl
  | cons r t =>
    show ((splitLines (joinSep ['\n'] ((r :: t).map encodeRecordC))).filter
        isTruthyLine).mapM _ = _
    rw [splitLines_joinSep _ (by simp) (by
      intro l hl
      obtain ⟨q, _, rfl⟩ := List.mem_map.mp hl
      exact encodeRecordC_no_nl q)]
    rw [List.filter_eq_self.mpr (by
      intro l hl
      obtain ⟨q, _, rfl⟩ := List.mem_map.mp hl
      exact isTruthyLine_of_mem (show '\x7b' ∈ encodeRecordC q by
        unfold encodeRecordC
        exact List.mem_cons_self _ _) (by decide))]
    exact mapM_parse_lines (r :: t)

theorem parseMembers_roundP :
    ∀ (entries : JRecord) (fuel : Nat) (rest : List Char),
      entries ≠ [] → entries.length ≤ fuel →
      parseMembers fuel
          ('\n' :: (joinSep [',', '\n'] (entries.map encodeMemberP)
            ++ '\n' :: ' ' :: ' ' :: '\x7d' :: rest))
        = some (entries, rest) := by
  intro entries
  induction entries with
  | nil => intro fuel rest hne _; exact absurd rfl hne
  | cons kv tailE ih =>
    obtain ⟨k, v⟩ := kv
    intro fuel rest _ hlen
    cases fuel with
    | zero => simp at hlen
    | succ f =>
      rw [parseMembers_succ]
      cases tailE with
      | nil =>
        have hshape : '\n' :: (joinSep [',', '\n']
              ([((k, v) : (List Char) × JScalar)].map encodeMemberP)
              ++ '\n' :: ' ' :: ' ' :: '\x7d' :: rest)
            = ['\n', ' ', ' ', ' ', ' ']
              ++ ('\x22' :: ((k.map escapeChar).flatten
                ++ '\x22' :: ':' :: ([' '] ++ (encodeScalar v
                  ++ '\n' :: ' ' :: ' ' :: '\x7d' :: rest)))) := by
          simp [joinSep, encodeMemberP, encodeStrLit]
        rw [hshape, parseMembersF_step (parseMembers f) k v
          ['\n', ' ', ' ', ' ', ' '] [' ']
          ('\n' :: ' ' :: ' ' :: '\x7d' :: rest) (by decide) (by decide) rfl]
        rw [show ('\n' :: ' ' :: ' ' :: '\x7d' :: rest : List Char)
          = ['\n', ' ', ' '] ++ '\x7d' :: rest from rfl]
        rw [skipWs_ws_append ['\n', ' ', ' '] _ (by decide),
          skipWs_not _ (show isWsChar '\x7d' = false from rfl)]
        dsimp only
        rw [if_neg (by decide), if_pos rfl]
      | cons kv2 t2 =>
        have hshape : '\n' :: (joinSep [',', '\n']
              (((k, v) :: kv2 :: t2).map encodeMemberP)
              ++ '\n' :: ' ' :: ' ' :: '\x7d' :: rest)
            = ['\n', ' ', ' ', ' ', ' ']
              ++ ('\x22' :: ((k.map escapeChar).flatten
                ++ '\x22' :: ':' :: ([' '] ++ (encodeScalar v
                  ++ (',' :: '\n' :: (joinSep [',', '\n']
                        ((kv2 :: t2).map encodeMemberP)
                      ++ '\n' :: ' ' :: ' ' :: '\x7d' :: rest)))))) := by
          simp [joinSep, encodeMemberP, encodeStrLit]
        rw [hshape, parseMembersF_step (parseMembers f) k v
          ['\n', ' ', ' ', ' ', ' '] [' ']
          (',' :: '\n' :: (joinSep [',', '\n'] ((kv2 :: t2).map encodeMemberP)
            ++ '\n' :: ' ' :: ' ' :: '\x7d' :: rest))
          (by decide) (by decide) rfl]
        rw [skipWs_not _ (show isWsChar ',' = false from rfl)]
        dsimp only
        rw [if_pos rfl, ih f rest (by simp) (by simp at hlen ⊢; omega)]
        rfl

theorem memberP_text_head (kv : (List Char) × JScalar)
    (xs : List ((List Char) × JScalar)) (W : List Char) :
    ∃ TAIL, joinSep [',', '\n'] ((kv :: xs).map encodeMemberP) ++ W
      = ' ' :: ' ' :: ' ' :: ' ' :: '\x22' :: TAIL := by
  obtain ⟨k, v⟩ := kv
  cases xs with
  | nil =>
    exact ⟨(k.map escapeChar).flatten ++ '\x22' :: ':' :: ' '
        :: (encodeScalar v ++ W),
      by simp [joinSep, encodeMemberP, encodeStrLit]⟩
  | cons y ys =>
    exact ⟨(k.map escapeChar).flatten ++ '\x22' :: ':' :: ' '
        :: (encodeScalar v
        ++ ',' :: '\n' :: (joinSep [',', '\n'] ((y :: ys).map encodeMemberP)
          ++ W)),
      by simp [joinSep, encodeMemberP, encodeStrLit]⟩

theorem parseRecord_roundP (fuel : Nat) (r : JRecord) (pre rest : List Char)
    (hpre : ∀ c ∈ pre, isWsChar c = true) (h : r.length ≤ fuel) :
    parseRecord fuel (pre ++ (encodeRecordP r ++ rest)) = some (r, rest) := by
  cases r with
  | nil =>
    show parseRecord fuel (pre ++ ('\x7b' :: '\x7d' :: rest)) = some ([], rest)
    unfold parseRecord
    rw [skipWs_ws_append pre _ hpre,
      skipWs_not _ (show isWsChar '\x7b' = false from rfl)]
    dsimp only
    rw [if_pos rfl, skipWs_not _ (show isWsChar '\x7d' = false from rfl)]
    dsimp only
    rw [if_pos rfl]
  | cons kv tailE =>
    have hshape : pre ++ (encodeRecordP (kv :: tailE) ++ rest)
        = pre ++ ('\x7b' :: ('\n' :: (joinSep [',', '\n']
            ((kv :: tailE).map encodeMemberP)
            ++ '\n' :: ' ' :: ' ' :: '\x7d' :: rest))) := by
      simp [encodeRecordP]
    rw [hshape]
    unfold parseRecord
    rw [skipWs_ws_append pre _ hpre,
      skipWs_not _ (show isWsChar '\x7b' = false from rfl)]
    dsimp only
    rw [if_pos rfl]
    obtain ⟨TAIL, hT⟩ := memberP_text_head kv tailE
      ('\n' :: ' ' :: ' ' :: '\x7d' :: rest)
    rw [hT]
    rw [show ('\n' :: (' ' :: ' ' :: ' ' :: ' ' :: '\x22' :: TAIL) : List Char)
      = ['\n', ' ', ' ', ' ', ' '] ++ '\x22' :: TAIL from rfl]
    rw [skipWs_ws_append ['\n', ' ', ' ', ' ', ' '] _ (by decide),
      skipWs_not _ (show isWsChar '\x22' = false from rfl)]
    dsimp only
    rw [if_neg (by decide)]
    have hmem := parseMembers_roundP (kv :: tailE) fuel rest (by simp) h
    rw [hT] at hmem
    exact hmem

theorem parseElems_succ (f mf : Nat) (l : List Char) :
    parseElems (f + 1) mf l = parseElemsF (parseElems f mf) mf l := by
  rw [parseElems.eq_def]

theorem parseElems_roundP :
    ∀ (rs : List JRecord) (fuel mfuel : Nat) (rest : List Char),
      rs ≠ [] → rs.length ≤ fuel → (∀ r ∈ rs, r.length ≤ mfuel) →
      parseElems fuel mfuel
          ('\n' :: (joinSep [',', '\n']
              (rs.map (fun r => ' ' :: ' ' :: encodeRecordP r))
            ++ '\n' :: ']' :: rest))
        = some (rs, rest) := by
  intro rs
  induction rs with
  | nil => intro fuel mfuel rest hne _ _; exact absurd rfl hne
  | cons r t ih =>
    intro fuel mfuel rest _ hlen hm
    cases fuel with
    | zero => simp at hlen
    | succ f =>
      rw [parseElems_succ]
      unfold parseElemsF
      cases t with
      | nil =>
        have hshape : '\n' :: (joinSep [',', '\n']
              ([r].map (fun q => ' ' :: ' ' :: encodeRecordP q))
              ++ '\n' :: ']' :: rest)
            = ['\n', ' ', ' '] ++ (encodeRecordP r ++ '\n' :: ']' :: rest) := by
          simp [joinSep]
        rw [hshape, parseRecord_roundP mfuel r ['\n', ' ', ' ']
          ('\n' :: ']' :: rest) (by decide) (hm r (by simp))]
        dsimp only
        rw [show ('\n' :: ']' :: rest : List Char) = ['\n'] ++ ']' :: rest
          from rfl]
        rw [skipWs_ws_append ['\n'] _ (by decide),
          skipWs_not _ (show isWsChar ']' = false from rfl)]
        dsimp only
        rw [if_neg (by decide), if_pos rfl]
      | cons r2 t2 =>
        have hshape : '\n' :: (joinSep [',', '\n']
              ((r :: r2 :: t2).map (fun q => ' ' :: ' ' :: encodeRecordP q))
              ++ '\n' :: ']' :: rest)
            = ['\n', ' ', ' '] ++ (encodeRecordP r
              ++ ',' :: '\n' :: (joinSep [',', '\n']
                  ((r2 :: t2).map (fun q => ' ' :: ' ' :: encodeRecordP q))
                ++ '\n' :: ']' :: rest)) := by
          simp [joinSep]
        rw [hshape, parseRecord_roundP mfuel r ['\n', ' ', ' ']
          (',' :: '\n' :: (joinSep [',', '\n']
              ((r2 :: t2).map (fun q => ' ' :: ' ' :: encodeRecordP q))
            ++ '\n' :: ']' :: rest)) (by decide) (hm r (by simp))]
        dsimp only
        rw [skipWs_not _ (show isWsChar ',' = false from rfl)]
        dsimp only
        rw [if_pos rfl, ih f mfuel rest (by simp)
          (by simp at hlen ⊢; omega) (fun q hq => hm q (by simp [hq]))]
        rfl

theorem encodeRecordP_head (r : JRecord) :
    ∃ T2, encodeRecordP r = '\x7b' :: T2 := by
  cases r with
  | nil => exact ⟨['\x7d'], rfl⟩
  | cons kv t =>
    exact ⟨'\n' :: joinSep [',', '\n'] ((kv :: t).map encodeMemberP)
      ++ '\n' :: ' ' :: ' ' :: ['\x7d'], rfl⟩

theorem elemP_text_head (r : JRecord) (xs : List JRecord) (W : List Char) :
    ∃ TAIL, joinSep [',', '\n']
        ((r :: xs).map (fun q => ' ' :: ' ' :: encodeRecordP q)) ++ W
      = ' ' :: ' ' :: '\x7b' :: TAIL := by
  obtain ⟨T2, hT2⟩ := encodeRecordP_head r
  cases xs with
  | nil => exact ⟨T2 ++ W, by simp [joinSep, hT2]⟩
  | cons y ys =>
    exact ⟨T2 ++ ',' :: '\n' :: (joinSep [',', '\n']
        ((y :: ys).map (fun q => ' ' :: ' ' :: encodeRecordP q)) ++ W),
      by simp [joinSep, hT2]⟩

theorem parseRecordsArray_roundP (rs : List JRecord) (fuel : Nat)
    (rest : List Char) (hf1 : rs.length ≤ fuel)
    (hf2 : ∀ r ∈ rs, r.length ≤ fuel) :
    parseRecordsArray fuel (encodeJsonP rs ++ rest) = some (rs, rest) := by
  cases rs with
  | nil =>
    show parseRecordsArray fuel ('[' :: ']' :: rest) = some ([], rest)
    unfold parseRecordsArray
    rw [skipWs_not _ (show isWsChar '[' = false from rfl)]
    dsimp only
    rw [if_pos rfl, skipWs_not _ (show isWsChar ']' = false from rfl)]
    dsimp only
    rw [if_pos rfl]
  | cons r t =>
    have hshape : encodeJsonP (r :: t) ++ rest
        = '[' :: ('\n' :: (joinSep [',', '\n']
            ((r :: t).map (fun q => ' ' :: ' ' :: encodeRecordP q))
            ++ '\n' :: ']' :: rest)) := by
      simp [encodeJsonP]
    rw [hshape]
    unfold parseRecordsArray
    rw [skipWs_not _ (show isWsChar '[' = false from rfl)]
    dsimp only
    rw [if_pos rfl]
    obtain ⟨TAIL, hT⟩ := elemP_text_head r t ('\n' :: ']' :: rest)
    rw [hT]
    rw [show ('\n' :: (' ' :: ' ' :: '\x7b' :: TAIL) : List Char)
      = ['\n', ' ', ' '] ++ '\x7b' :: TAIL from rfl]
    rw [skipWs_ws_append ['\n', ' ', ' '] _ (by decide),
      skipWs_not _ (show isWsChar '\x7b' = false from rfl)]
    dsimp only
    rw [if_neg (by decide)]
    have helems := parseElems_roundP (r :: t) fuel fuel rest (by simp) hf1 hf2
    rw [hT] at helems
    exact helems

theorem memberP_len_pos (kv : (List Char) × JScalar) :
    1 ≤ (encodeMemberP kv).length := by
  simp [encodeMemberP]

theorem joinSep_elem_le (sep : List Char) :
    ∀ (L : List (List Char)) (x : List Char), x ∈ L →
      x.length ≤ (joinSep sep L).length := by
  intro L
  induction L with
  | nil => intro x hx; simp at hx
  | cons a t ih =>
    intro x hx
    cases t with
    | nil =>
      rcases List.mem_cons.mp hx with rfl | hx
      · simp [joinSep]
      · simp at hx
    | cons b t2 =>
      simp only [joinSep, List.length_append]
      rcases List.mem_cons.mp hx with rfl | hx
      · omega
      · have := ih x hx
        omega

theorem record_length_le_encodeP (r : JRecord) :
    r.length ≤ (encodeRecordP r).length := by
  cases r with
  | nil => simp [encodeRecordP]
  | cons kv t =>
    have h1 : ((kv :: t).map encodeMemberP).length
        ≤ (joinSep [',', '\n'] ((kv :: t).map encodeMemberP)).length :=
      joinSep_length_ge _ _ (by
        intro x hx
        obtain ⟨q, _, rfl⟩ := List.mem_map.mp hx
        exact memberP_len_pos q)
    simp only [encodeRecordP, List.length_map, List.length_cons,
      List.length_append] at h1 ⊢
    omega

theorem jsonP_fuel_records (rs : List JRecord) :
    rs.length ≤ (encodeJsonP rs).length := by
  cases rs with
  | nil => simp [encodeJsonP]
  | cons r t =>
    have h1 : ((r :: t).map (fun q => ' ' :: ' ' :: encodeRecordP q)).length
        ≤ (joinSep [',', '\n']
            ((r :: t).map (fun q => ' ' :: ' ' :: encodeRecordP q))).length :=
      joinSep_length_ge _ _ (by
        intro x hx
        obtain ⟨q, _, rfl⟩ := List.mem_map.mp hx
        simp)
    simp only [encodeJsonP, List.length_map, List.length_cons,
      List.length_append] at h1 ⊢
    omega

theorem jsonP_fuel_members (rs : List JRecord) :
    ∀ r ∈ rs, r.length ≤ (encodeJsonP rs).length := by
  intro r hr
  cases rs with
  | nil => simp at hr
  | cons a t =>
    have h1 : (' ' :: ' ' :: encodeRecordP r).length
        ≤ (joinSep [',', '\n']
            ((a :: t).map (fun q => ' ' :: ' ' :: encodeRecordP q))).length :=
      joinSep_elem_le _ _ _ (List.mem_map.mpr ⟨r, hr, rfl⟩)
    have h2 := record_length_le_encodeP r
    simp only [List.length_cons] at h1
    simp only [encodeJsonP, List.length_cons, List.length_append] at h1 ⊢
    omega

theorem decode_encode_json (rs : List JRecord) :
    decodeData (encodeData rs CodecFormat.json) CodecFormat.json = some rs := by
  show (match parseRecordsArray ((encodeJsonP rs).length + 1) (encodeJsonP rs)
      with
    | some (rs2, rest) => if skipWs rest = [] then some rs2 else none
    | none => none) = some rs
  have h := parseRecordsArray_roundP rs ((encodeJsonP rs).length + 1) []
    (le_trans (jsonP_fuel_records rs) (by omega))
    (fun r hr => le_trans (jsonP_fuel_members rs r hr) (by omega))
  rw [List.append_nil] at h
  rw [h]
  dsimp only
  simp [skipWs]

/-- C8: For every record sequence `rs` containing only flat scalar fields,
decoding the encoding of `rs` is the identity, for both the `json` format
(`JSON.stringify(records, null, 2)` / `JSON.parse`) and the `jsonl` format
(newline-joined compact `JSON.stringify` lines / split-filter-parse):
`decodeData (encodeData rs f) f = some rs` for `f ∈ {json, jsonl}`. -/
theorem C8_decode_encode_roundtrip (rs : List JRecord) :
    decodeData (encodeData rs CodecFormat.json) CodecFormat.json = some rs ∧
    decodeData (encodeData rs CodecFormat.jsonl) CodecFormat.jsonl = some rs :=
  ⟨decode_encode_json rs, decode_encode_jsonl rs⟩

end Foundry
